import Mathlib

/-!
Verification of the uhpm-core package manager against its natural-language
specification.  The Rust sources are shallowly embedded: Rust `String` is
modelled as `List Char`, `PathBuf` as the `List Char` of its textual form,
byte buffers as `List Nat`, fallible functions as `Except`/`Option`, and the
asynchronous filesystem / network / cache ports as explicit state records.
The external `semver` crate is modelled by an executable `Version` type with
the semantic-version comparison and a strict parser; build metadata (the part
after `+`) is not modelled, since no verified property mentions it, and the
parser rejects strings containing `+`.
-/

namespace Uhpm

/-! Generic ordering comparators.  Rust's `Ord` implementations return an
`Ordering`; we mirror them with `Ordering`-valued comparison functions and
prove the laws needed for sorting and maximum reasoning. -/

/-- Comparator on naturals, mirroring `u64::cmp`. -/
def cmpNat (a b : Nat) : Ordering :=
  if a < b then .lt else if b < a then .gt else .eq

/-- Comparator on characters by code point, mirroring `char::cmp` (ASCII order
on ASCII strings, as the semver specification requires). -/
def cmpChar (a b : Char) : Ordering :=
  cmpNat a.toNat b.toNat

/-- Lexicographic comparator on lists, mirroring the `Ord` instance of Rust
slices: elementwise first difference, shorter list first on a tie. -/
def cmpList (c : α → α → Ordering) : List α → List α → Ordering
  | [], [] => .eq
  | [], _ :: _ => .lt
  | _ :: _, [] => .gt
  | a :: as, b :: bs => (c a b).then (cmpList c as bs)

/-- Laws a total-order comparator satisfies: it reflects equality, swapping
arguments swaps the verdict, and strict comparison is transitive. -/
structure LawfulCmp {α : Type} (c : α → α → Ordering) : Prop where
  eq_iff : ∀ a b, c a b = .eq ↔ a = b
  swap_eq : ∀ a b, c b a = (c a b).swap
  lt_trans : ∀ {a b d}, c a b = .lt → c b d = .lt → c a d = .lt

theorem LawfulCmp.refl_eq {c : α → α → Ordering} (h : LawfulCmp c) (a : α) :
    c a a = .eq := (h.eq_iff a a).mpr rfl

theorem LawfulCmp.le_trans {c : α → α → Ordering} (h : LawfulCmp c) {a b d : α}
    (h1 : c a b ≠ .gt) (h2 : c b d ≠ .gt) : c a d ≠ .gt := by
  cases e1 : c a b with
  | gt => exact absurd e1 h1
  | eq =>
    obtain rfl := (h.eq_iff a b).mp e1
    exact h2
  | lt =>
    cases e2 : c b d with
    | gt => exact absurd e2 h2
    | eq =>
      obtain rfl := (h.eq_iff b d).mp e2
      simp [e1]
    | lt => simp [h.lt_trans e1 e2]

theorem LawfulCmp.total {c : α → α → Ordering} (h : LawfulCmp c) (a b : α) :
    c a b ≠ .gt ∨ c b a ≠ .gt := by
  cases e : c a b with
  | lt => exact .inl (by simp [e])
  | eq => exact .inl (by simp [e])
  | gt => exact .inr (by simp [h.swap_eq a b, e, Ordering.swap])

/-- Transport of comparator laws along an injective key function. -/
theorem lawfulCmp_comap {β : Type} {c : β → β → Ordering} (f : α → β)
    (hf : Function.Injective f) (h : LawfulCmp c) :
    LawfulCmp (fun a b => c (f a) (f b)) := by
  refine ⟨fun a b => ?_, fun a b => h.swap_eq _ _, fun h1 h2 => h.lt_trans h1 h2⟩
  rw [h.eq_iff]
  exact ⟨fun e => hf e, fun e => by rw [e]⟩

theorem lawfulCmpNat : LawfulCmp cmpNat := by
  refine ⟨fun a b => ?_, fun a b => ?_, fun {a b d} h1 h2 => ?_⟩
  · unfold cmpNat; split_ifs <;> simp <;> omega
  · unfold cmpNat
    split_ifs <;> (try omega) <;> simp [Ordering.swap]
  · unfold cmpNat at *
    split_ifs at * <;> simp_all <;> omega

theorem lawfulCmpChar : LawfulCmp cmpChar := by
  have hinj : Function.Injective Char.toNat := fun a b h => Char.ext (UInt32.ext h)
  exact lawfulCmp_comap Char.toNat hinj lawfulCmpNat

theorem Ordering.then_swap (x y : Ordering) : (x.then y).swap = x.swap.then y.swap := by
  cases x <;> rfl

theorem lawfulCmpList {c : α → α → Ordering} (h : LawfulCmp c) :
    LawfulCmp (cmpList c) := by
  refine ⟨?_, ?_, ?_⟩
  · intro a
    induction a with
    | nil => intro b; cases b <;> simp [cmpList]
    | cons x xs ih =>
      intro b
      cases b with
      | nil => simp [cmpList]
      | cons y ys =>
        simp only [cmpList]
        constructor
        · intro e
          cases e1 : c x y with
          | lt => rw [e1] at e; simp [Ordering.then] at e
          | gt => rw [e1] at e; simp [Ordering.then] at e
          | eq =>
            obtain rfl := (h.eq_iff x y).mp e1
            rw [e1] at e
            simp only [Ordering.then] at e
            rw [(ih ys).mp e]
        · rintro ⟨rfl, rfl⟩
          rw [h.refl_eq x]
          simpa [Ordering.then] using (ih xs).mpr rfl
  · intro a
    induction a with
    | nil => intro b; cases b <;> simp [cmpList, Ordering.swap]
    | cons x xs ih =>
      intro b
      cases b with
      | nil => simp [cmpList, Ordering.swap]
      | cons y ys =>
        simp only [cmpList]
        rw [Ordering.then_swap, h.swap_eq, ih ys]
  · intro a
    induction a with
    | nil =>
      intro b d h1 h2
      cases b with
      | nil => simp [cmpList] at h1
      | cons y ys =>
        cases d with
        | nil => simp [cmpList] at h2
        | cons z zs => simp [cmpList]
    | cons x xs ih =>
      intro b d h1 h2
      cases b with
      | nil => simp [cmpList] at h1
      | cons y ys =>
        cases d with
        | nil => simp [cmpList] at h2
        | cons z zs =>
          simp only [cmpList] at h1 h2 ⊢
          cases e1 : c x y with
          | gt => rw [e1] at h1; simp [Ordering.then] at h1
          | lt =>
            cases e2 : c y z with
            | gt => rw [e2] at h2; simp [Ordering.then] at h2
            | lt => simp [h.lt_trans e1 e2, Ordering.then]
            | eq =>
              obtain rfl := (h.eq_iff y z).mp e2
              simp [e1, Ordering.then]
          | eq =>
            obtain rfl := (h.eq_iff x y).mp e1
            rw [e1] at h1
            simp only [Ordering.then] at h1
            cases e2 : c x z with
            | gt => rw [e2] at h2; simp [Ordering.then] at h2
            | lt => simp [e2, Ordering.then]
            | eq =>
              obtain rfl := (h.eq_iff x z).mp e2
              rw [e2] at h2
              simp only [Ordering.then] at h2
              simp [h.refl_eq x, Ordering.then, ih h1 h2]

/-- Lexicographic combination of comparators on a product. -/
def cmpProd (c1 : α → α → Ordering) (c2 : β → β → Ordering)
    (x y : α × β) : Ordering :=
  (c1 x.1 y.1).then (c2 x.2 y.2)

theorem lawfulCmpProd {c1 : α → α → Ordering} {c2 : β → β → Ordering}
    (h1 : LawfulCmp c1) (h2 : LawfulCmp c2) : LawfulCmp (cmpProd c1 c2) := by
  refine ⟨?_, ?_, ?_⟩
  · rintro ⟨a1, a2⟩ ⟨b1, b2⟩
    simp only [cmpProd, Prod.mk.injEq]
    constructor
    · intro e
      cases e1 : c1 a1 b1 with
      | lt => rw [e1] at e; simp [Ordering.then] at e
      | gt => rw [e1] at e; simp [Ordering.then] at e
      | eq =>
        rw [e1] at e
        simp only [Ordering.then] at e
        exact ⟨(h1.eq_iff a1 b1).mp e1, (h2.eq_iff a2 b2).mp e⟩
    · rintro ⟨rfl, rfl⟩
      rw [h1.refl_eq a1]
      simpa [Ordering.then] using h2.refl_eq a2
  · rintro ⟨a1, a2⟩ ⟨b1, b2⟩
    simp only [cmpProd]
    rw [Ordering.then_swap, h1.swap_eq, h2.swap_eq]
  · rintro ⟨a1, a2⟩ ⟨b1, b2⟩ ⟨d1, d2⟩ e1 e2
    simp only [cmpProd] at e1 e2 ⊢
    cases f1 : c1 a1 b1 with
    | gt => rw [f1] at e1; simp [Ordering.then] at e1
    | lt =>
      cases f2 : c1 b1 d1 with
      | gt => rw [f2] at e2; simp [Ordering.then] at e2
      | lt => simp [h1.lt_trans f1 f2, Ordering.then]
      | eq =>
        obtain rfl := (h1.eq_iff b1 d1).mp f2
        simp [f1, Ordering.then]
    | eq =>
      obtain rfl := (h1.eq_iff a1 b1).mp f1
      rw [f1] at e1
      simp only [Ordering.then] at e1
      cases f2 : c1 a1 d1 with
      | gt => rw [f2] at e2; simp [Ordering.then] at e2
      | lt => simp [f2, Ordering.then]
      | eq =>
        rw [f2] at e2
        simp only [Ordering.then] at e2
        simp [f2, Ordering.then, h2.lt_trans e1 e2]

/-! Model of the external `semver` crate: versions, precedence comparison,
strict parsing and display.  A prerelease is a list of identifiers, each
either purely numeric or alphanumeric, exactly as the semver specification
distinguishes them for precedence. -/

/-- One prerelease identifier: numeric identifiers compare numerically and
order below alphanumeric ones, which compare in ASCII order. -/
inductive PreId where
  | num (n : Nat)
  | alpha (s : List Char)
deriving DecidableEq

/-- Semantic version: `major.minor.patch` with an optional prerelease
(empty list means no prerelease).  Build metadata is not modelled. -/
structure Version where
  major : Nat
  minor : Nat
  patch : Nat
  pre : List PreId
deriving DecidableEq

/-- Comparator on prerelease identifiers per the semver precedence rules. -/
def cmpPreId : PreId → PreId → Ordering
  | .num a, .num b => cmpNat a b
  | .num _, .alpha _ => .lt
  | .alpha _, .num _ => .gt
  | .alpha a, .alpha b => cmpList cmpChar a b

/-- Comparator on prereleases: a release (empty prerelease) has higher
precedence than any prerelease; otherwise identifiers compare
lexicographically with the shorter list first on a tie. -/
def cmpPre : List PreId → List PreId → Ordering
  | [], [] => .eq
  | [], _ :: _ => .gt
  | _ :: _, [] => .lt
  | a :: as, b :: bs => cmpList cmpPreId (a :: as) (b :: bs)

/-- Comparator on versions, mirroring `Ord for semver::Version` restricted to
the modelled fields. -/
def vcmp (a b : Version) : Ordering :=
  (cmpNat a.major b.major).then
    ((cmpNat a.minor b.minor).then
      ((cmpNat a.patch b.patch).then (cmpPre a.pre b.pre)))

/-- The semver less-or-equal relation used by sorting and maxima. -/
def vle (a b : Version) : Prop := vcmp a b ≠ .gt

instance : DecidableRel vle := fun a b =>
  inferInstanceAs (Decidable (vcmp a b ≠ .gt))

theorem lawfulCmpPreId : LawfulCmp cmpPreId := by
  have hl := lawfulCmpList lawfulCmpChar
  refine ⟨?_, ?_, ?_⟩
  · rintro (a | a) (b | b) <;>
      simp [cmpPreId, lawfulCmpNat.eq_iff, hl.eq_iff]
  · rintro (a | a) (b | b)
    · exact lawfulCmpNat.swap_eq a b
    · rfl
    · rfl
    · exact hl.swap_eq a b
  · rintro (a | a) (b | b) (d | d) h1 h2 <;>
      simp_all [cmpPreId] <;>
      first
        | exact lawfulCmpNat.lt_trans h1 h2
        | exact hl.lt_trans h1 h2

theorem lawfulCmpPre : LawfulCmp cmpPre := by
  have hl := lawfulCmpList lawfulCmpPreId
  refine ⟨?_, ?_, ?_⟩
  · rintro (_ | ⟨x, xs⟩) (_ | ⟨y, ys⟩) <;> simp [cmpPre, hl.eq_iff]
  · rintro (_ | ⟨x, xs⟩) (_ | ⟨y, ys⟩)
    · rfl
    · rfl
    · rfl
    · exact hl.swap_eq _ _
  · rintro (_ | ⟨x, xs⟩) (_ | ⟨y, ys⟩) (_ | ⟨z, zs⟩) h1 h2 <;>
      simp_all [cmpPre]
    exact hl.lt_trans h1 h2

/-- Projection of a version to the tuple its comparator works through. -/
def vkey (v : Version) : Nat × Nat × Nat × List PreId :=
  (v.major, v.minor, v.patch, v.pre)

theorem vkey_injective : Function.Injective vkey := by
  rintro ⟨a1, a2, a3, a4⟩ ⟨b1, b2, b3, b4⟩ h
  simpa [vkey, Version.mk.injEq] using h

theorem lawfulVcmp : LawfulCmp vcmp := by
  have h : LawfulCmp (cmpProd cmpNat (cmpProd cmpNat (cmpProd cmpNat cmpPre))) :=
    lawfulCmpProd lawfulCmpNat
      (lawfulCmpProd lawfulCmpNat (lawfulCmpProd lawfulCmpNat lawfulCmpPre))
  exact lawfulCmp_comap vkey vkey_injective h

theorem vle_refl (v : Version) : vle v v := by
  simp [vle, lawfulVcmp.refl_eq]

theorem vle_trans {a b d : Version} (h1 : vle a b) (h2 : vle b d) : vle a d :=
  lawfulVcmp.le_trans h1 h2

theorem vle_total (a b : Version) : vle a b ∨ vle b a :=
  lawfulVcmp.total a b

instance : IsTotal Version vle := ⟨vle_total⟩

instance : IsTrans Version vle := ⟨fun _ _ _ => vle_trans⟩

/-! Decimal numerals, mirroring the display and strict parsing of version
numbers in the semver crate: digits only, no leading zero except `"0"`. -/

/-- Decimal digits of `n`, most significant first; `fuel` bounds recursion. -/
def natCharsAux : Nat → Nat → List Char
  | 0, _ => []
  | fuel + 1, n =>
    if n < 10 then [Nat.digitChar n]
    else natCharsAux fuel (n / 10) ++ [Nat.digitChar (n % 10)]

/-- Decimal representation of a natural number. -/
def natChars (n : Nat) : List Char := natCharsAux (n + 1) n

/-- Numeric value of a digit character. -/
def charValue (c : Char) : Nat := c.toNat - 48

/-- Value of a decimal digit string. -/
def charsToNat (s : List Char) : Nat :=
  s.foldl (fun a c => 10 * a + charValue c) 0

/-- Recogniser for valid decimal numerals (no leading zero except `"0"`). -/
def isNumeral : List Char → Bool
  | [] => false
  | c :: cs => (c :: cs).all Char.isDigit && (cs.isEmpty || c != '0')

/-- Strict numeral parser. -/
def parseNumeral (s : List Char) : Option Nat :=
  if isNumeral s then some (charsToNat s) else none

theorem natCharsAux_ne_nil {fuel n : Nat} (h : n < fuel) :
    natCharsAux fuel n ≠ [] := by
  cases fuel with
  | zero => omega
  | succ f =>
    simp only [natCharsAux]
    split
    · simp
    · simp

theorem natCharsAux_digits {fuel n : Nat} (h : n < fuel) :
    ∀ c ∈ natCharsAux fuel n, c.isDigit = true := by
  induction fuel generalizing n with
  | zero => omega
  | succ f ih =>
    simp only [natCharsAux]
    split
    · intro c hc
      rename_i h10
      simp only [List.mem_singleton] at hc
      subst hc
      interval_cases n <;> decide
    · rename_i h10
      intro c hc
      rcases List.mem_append.mp hc with hc | hc
      · exact ih (by omega) c hc
      · simp only [List.mem_singleton] at hc
        subst hc
        have : n % 10 < 10 := Nat.mod_lt _ (by omega)
        interval_cases h : (n % 10) <;> simp_all <;> decide

theorem charsToNat_append_singleton (s : List Char) (c : Char) :
    charsToNat (s ++ [c]) = 10 * charsToNat s + charValue c := by
  simp [charsToNat, List.foldl_append]

theorem digitChar_charValue {n : Nat} (h : n < 10) :
    charValue (Nat.digitChar n) = n := by
  interval_cases n <;> decide

theorem natCharsAux_toNat {fuel n : Nat} (h : n < fuel) :
    charsToNat (natCharsAux fuel n) = n := by
  induction fuel generalizing n with
  | zero => omega
  | succ f ih =>
    simp only [natCharsAux]
    split
    · rename_i h10
      simp [charsToNat, digitChar_charValue h10]
    · rename_i h10
      rw [charsToNat_append_singleton, ih (by omega),
        digitChar_charValue (Nat.mod_lt _ (by omega))]
      omega

theorem natCharsAux_head_ne_zero {fuel n : Nat} (h : n < fuel) (hn : 0 < n) :
    ∀ c, (natCharsAux fuel n).head? = some c → c ≠ '0' := by
  induction fuel generalizing n with
  | zero => omega
  | succ f ih =>
    simp only [natCharsAux]
    split
    · rename_i h10
      intro c hc
      simp only [List.head?_cons, Option.some.injEq] at hc
      subst hc
      interval_cases n <;> simp_all <;> decide
    · rename_i h10
      intro c hc
      have hne : natCharsAux f (n / 10) ≠ [] := natCharsAux_ne_nil (by omega)
      obtain ⟨x, t, hx⟩ := List.exists_cons_of_ne_nil hne
      rw [hx] at hc
      simp only [List.cons_append, List.head?_cons, Option.some.injEq] at hc
      subst hc
      exact ih (n := n / 10) (by omega) (by omega) x (by rw [hx]; rfl)

theorem natChars_ne_nil (n : Nat) : natChars n ≠ [] :=
  natCharsAux_ne_nil (Nat.lt_succ_self n)

theorem natChars_digits (n : Nat) : ∀ c ∈ natChars n, c.isDigit = true :=
  natCharsAux_digits (Nat.lt_succ_self n)

theorem isNumeral_natChars (n : Nat) : isNumeral (natChars n) = true := by
  obtain ⟨c, cs, hc⟩ := List.exists_cons_of_ne_nil (natChars_ne_nil n)
  rw [hc]
  simp only [isNumeral, Bool.and_eq_true, List.all_eq_true]
  refine ⟨fun x hx => natChars_digits n x (by rw [hc]; exact hx), ?_⟩
  rcases Nat.eq_zero_or_pos n with rfl | hn
  · have : natChars 0 = ['0'] := by decide
    rw [this] at hc
    obtain ⟨rfl, rfl⟩ : c = '0' ∧ cs = [] := by
      constructor <;> [exact (List.cons.injEq .. ▸ hc.symm).1; exact (List.cons.injEq .. ▸ hc.symm).2]
    simp
  · have hne : c ≠ '0' :=
      natCharsAux_head_ne_zero (Nat.lt_succ_self n) hn c (by rw [show natCharsAux (n+1) n = natChars n from rfl, hc]; rfl)
    simp [hne, Bool.or_eq_true]

theorem charsToNat_natChars (n : Nat) : charsToNat (natChars n) = n :=
  natCharsAux_toNat (Nat.lt_succ_self n)

theorem parseNumeral_natChars (n : Nat) : parseNumeral (natChars n) = some n := by
  simp [parseNumeral, isNumeral_natChars, charsToNat_natChars]

/-! Splitting utilities mirroring Rust's `str::split`, `str::splitn` and the
component structure of version strings. -/

/-- Split on every occurrence of `c`, mirroring Rust `str::split(char)`:
the empty string yields one empty field, and separators at the ends yield
empty fields. -/
def splitOnChar (c : Char) : List Char → List (List Char)
  | [] => [[]]
  | x :: xs =>
    if x = c then [] :: splitOnChar c xs
    else
      match splitOnChar c xs with
      | [] => [[x]]
      | r :: rs => (x :: r) :: rs

/-- Split at the first occurrence of `c`, or `none` when absent. -/
def splitFirst (c : Char) : List Char → Option (List Char × List Char)
  | [] => none
  | x :: xs =>
    if x = c then some ([], xs)
    else (splitFirst c xs).map (fun p => (x :: p.1, p.2))

theorem splitOnChar_ne_nil (c : Char) (s : List Char) : splitOnChar c s ≠ [] := by
  induction s with
  | nil => simp [splitOnChar]
  | cons x xs ih =>
    simp only [splitOnChar]
    split
    · simp
    · cases h : splitOnChar c xs with
      | nil => simp
      | cons r rs => simp

theorem splitOnChar_of_not_mem {c : Char} {s : List Char} (h : c ∉ s) :
    splitOnChar c s = [s] := by
  induction s with
  | nil => rfl
  | cons x xs ih =>
    simp only [List.mem_cons, not_or] at h
    have hxc : ¬ x = c := fun e => h.1 e.symm
    simp only [splitOnChar, if_neg hxc, ih h.2]

theorem splitOnChar_append_cons {c : Char} {a : List Char} (b : List Char)
    (h : c ∉ a) : splitOnChar c (a ++ c :: b) = a :: splitOnChar c b := by
  induction a with
  | nil => simp [splitOnChar]
  | cons x xs ih =>
    simp only [List.mem_cons, not_or] at h
    have hxc : ¬ x = c := fun e => h.1 e.symm
    simp only [List.cons_append, splitOnChar, if_neg hxc]
    rw [show xs.append (c :: b) = xs ++ c :: b from rfl, ih h.2]

theorem splitFirst_of_not_mem {c : Char} {s : List Char} (h : c ∉ s) :
    splitFirst c s = none := by
  induction s with
  | nil => rfl
  | cons x xs ih =>
    simp only [List.mem_cons, not_or] at h
    have hxc : ¬ x = c := fun e => h.1 e.symm
    simp [splitFirst, if_neg hxc, ih h.2]

theorem splitFirst_append_cons {c : Char} {a : List Char} (b : List Char)
    (h : c ∉ a) : splitFirst c (a ++ c :: b) = some (a, b) := by
  induction a with
  | nil => simp [splitFirst]
  | cons x xs ih =>
    simp only [List.mem_cons, not_or] at h
    have hxc : ¬ x = c := fun e => h.1 e.symm
    simp [splitFirst, if_neg hxc, ih h.2]

/-- Valid characters of a semver identifier: ASCII alphanumerics and `-`. -/
def identChar (c : Char) : Bool := c.isAlphanum || c == '-'

/-- Parser for one prerelease identifier: it must be nonempty, use only
identifier characters, and a purely numeric identifier must have no leading
zero (these are exactly the checks of `semver::Prerelease::new`). -/
def parsePreId (s : List Char) : Option PreId :=
  if s.isEmpty then none
  else if !(s.all identChar) then none
  else if s.all Char.isDigit then (parseNumeral s).map .num
  else some (.alpha s)

/-- Effectful map over `Option`, mirroring `collect::<Result<Vec<_>,_>>`. -/
def optionMapA (f : β → Option α) : List β → Option (List α)
  | [] => some []
  | b :: bs => do
    let a ← f b
    let rest ← optionMapA f bs
    some (a :: rest)

/-- Parser for a prerelease: dot-separated identifiers. -/
def parsePre (s : List Char) : Option (List PreId) :=
  optionMapA parsePreId (splitOnChar '.' s)

/-- Parser for the `major.minor.patch` core. -/
def parseCore (s : List Char) : Option (Nat × Nat × Nat) :=
  match splitOnChar '.' s with
  | [a, b, c] => do
    let M ← parseNumeral a
    let m ← parseNumeral b
    let p ← parseNumeral c
    some (M, m, p)
  | _ => none

/-- Parser mirroring `semver::Version::parse` on the modelled fragment:
`major.minor.patch` optionally followed by `-prerelease`.  Strings carrying
build metadata (a `+`) are outside the model and rejected. -/
def parseVersion (s : List Char) : Option Version :=
  if s.contains '+' then none
  else
    match splitFirst '-' s with
    | none => (parseCore s).map (fun t => ⟨t.1, t.2.1, t.2.2, []⟩)
    | some (core, preStr) => do
      let t ← parseCore core
      let pre ← parsePre preStr
      some ⟨t.1, t.2.1, t.2.2, pre⟩

/-- Display form of one prerelease identifier. -/
def preIdChars : PreId → List Char
  | .num n => natChars n
  | .alpha s => s

/-- Join fields with `.`, mirroring how a prerelease prints. -/
def dotJoin : List (List Char) → List Char
  | [] => []
  | [x] => x
  | x :: y :: ys => x ++ '.' :: dotJoin (y :: ys)

/-- Display form of a version, mirroring `Display for semver::Version`. -/
def versionChars (v : Version) : List Char :=
  natChars v.major ++ '.' :: natChars v.minor ++ '.' :: natChars v.patch ++
    (if v.pre.isEmpty then [] else '-' :: dotJoin (v.pre.map preIdChars))

/-- Invariant `semver::Prerelease` maintains for each parsed identifier. -/
def PreId.wf : PreId → Prop
  | .num _ => True
  | .alpha s => s ≠ [] ∧ s.all identChar = true ∧ s.all Char.isDigit = false

/-- Invariant of parsed versions: every prerelease identifier is valid. -/
def Version.wf (v : Version) : Prop := ∀ i ∈ v.pre, i.wf

/-! Round-trip lemmas: parsing the display form of a well-formed version
recovers it.  These back the `PackageReference` round-trip claim and the
resolver proofs. -/

theorem not_mem_of_all_of_false {s : List Char} {p : Char → Bool}
    (hall : ∀ c ∈ s, p c = true) {d : Char} (hd : p d = false) : d ∉ s := by
  intro hm
  rw [hall d hm] at hd
  exact Bool.noConfusion hd

theorem digit_identChar {c : Char} (h : c.isDigit = true) : identChar c = true := by
  simp [identChar, Char.isAlphanum, h]

theorem natChars_not_mem_dot (n : Nat) : '.' ∉ natChars n :=
  not_mem_of_all_of_false (natChars_digits n) (by decide)

theorem natChars_not_mem_dash (n : Nat) : '-' ∉ natChars n :=
  not_mem_of_all_of_false (natChars_digits n) (by decide)

theorem natChars_not_mem_plus (n : Nat) : '+' ∉ natChars n :=
  not_mem_of_all_of_false (natChars_digits n) (by decide)

theorem natChars_not_mem_at (n : Nat) : '@' ∉ natChars n :=
  not_mem_of_all_of_false (natChars_digits n) (by decide)

theorem preIdChars_not_mem {i : PreId} (hwf : i.wf) {d : Char}
    (hdot : identChar d = false) : d ∉ preIdChars i := by
  cases i with
  | num n =>
    refine not_mem_of_all_of_false (s := natChars n) ?_ hdot
    intro c hc
    exact digit_identChar (natChars_digits n c hc)
  | alpha s =>
    obtain ⟨-, hall, -⟩ := hwf
    exact not_mem_of_all_of_false (List.all_eq_true.mp hall) hdot

theorem parsePreId_roundtrip {i : PreId} (hwf : i.wf) :
    parsePreId (preIdChars i) = some i := by
  cases i with
  | num n =>
    have hne := natChars_ne_nil n
    have hdig : (natChars n).all Char.isDigit = true :=
      List.all_eq_true.mpr (natChars_digits n)
    have hident : (natChars n).all identChar = true :=
      List.all_eq_true.mpr fun c hc => digit_identChar (natChars_digits n c hc)
    simp [parsePreId, preIdChars, List.isEmpty_iff, hne, hident, hdig,
      parseNumeral_natChars n]
  | alpha s =>
    obtain ⟨hne, hident, hnotdig⟩ := hwf
    simp [parsePreId, preIdChars, List.isEmpty_iff, hne, hident, hnotdig]

theorem parsePreId_wf {s : List Char} {i : PreId} (h : parsePreId s = some i) :
    i.wf := by
  unfold parsePreId at h
  split at h
  · exact absurd h (by simp)
  · split at h
    · exact absurd h (by simp)
    · split at h
      · rcases e : parseNumeral s with - | n
        · rw [e] at h; exact absurd h (by simp)
        · rw [e] at h
          simp only [Option.map_some', Option.some.injEq] at h
          subst h
          exact trivial
      · simp only [Option.some.injEq] at h
        subst h
        rename_i h1 h2 h3
        refine ⟨fun e => h1 (by simp [e]), by simpa using h2, by simpa using h3⟩

theorem optionMapA_map {f : β → Option α} {g : α → β} :
    ∀ {l : List α}, (∀ x ∈ l, f (g x) = some x) →
      optionMapA f (l.map g) = some l := by
  intro l
  induction l with
  | nil => intro _; rfl
  | cons x xs ih =>
    intro h
    simp only [List.map_cons, optionMapA, h x (by simp), Option.bind_eq_bind,
      Option.some_bind, ih fun y hy => h y (by simp [hy]), Option.bind_some]

theorem optionMapA_mem {f : β → Option α} :
    ∀ {l : List β} {r : List α}, optionMapA f l = some r →
      ∀ a ∈ r, ∃ b ∈ l, f b = some a := by
  intro l
  induction l with
  | nil =>
    intro r h a ha
    simp only [optionMapA, Option.some.injEq] at h
    subst h
    simp at ha
  | cons b bs ih =>
    intro r h a ha
    simp only [optionMapA, Option.bind_eq_bind, bind, Option.bind] at h
    rcases e : f b with - | x
    · rw [e] at h; exact absurd h (by simp)
    · rw [e] at h
      rcases e2 : optionMapA f bs with - | xs
      · rw [e2] at h; exact absurd h (by simp)
      · rw [e2] at h
        simp only [Option.some.injEq] at h
        subst h
        rcases List.mem_cons.mp ha with rfl | ha
        · exact ⟨b, by simp, e⟩
        · obtain ⟨b', hb', hf⟩ := ih e2 a ha
          exact ⟨b', by simp [hb'], hf⟩

theorem dotJoin_not_mem {parts : List (List Char)} {d : Char} (hd : d ≠ '.')
    (h : ∀ p ∈ parts, d ∉ p) : d ∉ dotJoin parts := by
  induction parts with
  | nil => simp [dotJoin]
  | cons x xs ih =>
    cases xs with
    | nil => simpa [dotJoin] using h x (by simp)
    | cons y ys =>
      simp only [dotJoin, List.mem_append, List.mem_cons, not_or]
      exact ⟨h x (by simp), hd,
        ih fun p hp => h p (List.mem_cons_of_mem _ hp)⟩

theorem splitOnChar_dotJoin {parts : List (List Char)} (hne : parts ≠ [])
    (h : ∀ p ∈ parts, '.' ∉ p) : splitOnChar '.' (dotJoin parts) = parts := by
  induction parts with
  | nil => exact absurd rfl hne
  | cons x xs ih =>
    cases xs with
    | nil => simpa [dotJoin] using splitOnChar_of_not_mem (h x (by simp))
    | cons y ys =>
      simp only [dotJoin]
      rw [splitOnChar_append_cons _ (h x (by simp))]
      rw [ih (by simp) fun p hp => h p (List.mem_cons_of_mem _ hp)]

theorem parseCore_roundtrip (a b c : Nat) :
    parseCore (natChars a ++ '.' :: (natChars b ++ '.' :: natChars c)) =
      some (a, b, c) := by
  unfold parseCore
  rw [splitOnChar_append_cons _ (natChars_not_mem_dot a),
    splitOnChar_append_cons _ (natChars_not_mem_dot b),
    splitOnChar_of_not_mem (natChars_not_mem_dot c)]
  simp [parseNumeral_natChars]

theorem parsePre_roundtrip {pre : List PreId} (hne : pre ≠ [])
    (hwf : ∀ i ∈ pre, i.wf) :
    parsePre (dotJoin (pre.map preIdChars)) = some pre := by
  unfold parsePre
  rw [splitOnChar_dotJoin (by simpa using hne) ?hdot]
  case hdot =>
    intro p hp
    obtain ⟨i, hi, rfl⟩ := List.mem_map.mp hp
    exact preIdChars_not_mem (hwf i hi) (by decide)
  exact optionMapA_map fun i hi => parsePreId_roundtrip (hwf i hi)

theorem versionChars_not_mem_plus {v : Version} (hwf : v.wf) :
    '+' ∉ versionChars v := by
  unfold versionChars
  intro hmem
  have hsplit : '+' ∈ natChars v.major ∨ '+' = '.' ∨ '+' ∈ natChars v.minor ∨
      '+' = '.' ∨ '+' ∈ natChars v.patch ∨
      '+' ∈ (if v.pre.isEmpty = true then ([] : List Char)
        else '-' :: dotJoin (v.pre.map preIdChars)) := by
    simpa [List.mem_append, List.mem_cons, or_assoc] using hmem
  rcases hsplit with h1 | h1 | h1 | h1 | h1 | h1
  · exact natChars_not_mem_plus _ h1
  · exact absurd h1 (by decide)
  · exact natChars_not_mem_plus _ h1
  · exact absurd h1 (by decide)
  · exact natChars_not_mem_plus _ h1
  · revert h1
    split
    · simp
    · intro h1
      rcases List.mem_cons.mp h1 with h2 | h2
      · exact absurd h2 (by decide)
      · refine dotJoin_not_mem (by decide) ?_ h2
        intro p hp
        obtain ⟨i, hi, rfl⟩ := List.mem_map.mp hp
        exact preIdChars_not_mem (hwf i hi) (by decide)

theorem parseVersion_roundtrip {v : Version} (hwf : v.wf) :
    parseVersion (versionChars v) = some v := by
  have hplus : (versionChars v).contains '+' = false := by
    rw [← Bool.not_eq_true]
    intro hc
    exact versionChars_not_mem_plus hwf (List.elem_iff.mp hc)
  unfold parseVersion
  rw [hplus]
  simp only [Bool.false_eq_true, if_false]
  obtain ⟨M, m, p, pre⟩ := v
  cases pre with
  | nil =>
    have hshape : versionChars ⟨M, m, p, []⟩ =
        natChars M ++ '.' :: (natChars m ++ '.' :: natChars p) := by
      simp [versionChars]
    rw [hshape]
    rw [splitFirst_of_not_mem ?hnodash]
    case hnodash =>
      simp only [List.mem_append, List.mem_cons, not_or]
      exact ⟨natChars_not_mem_dash M, by decide, natChars_not_mem_dash m,
        by decide, natChars_not_mem_dash p⟩
    rw [parseCore_roundtrip]
    rfl
  | cons i pis =>
    have hshape : versionChars ⟨M, m, p, i :: pis⟩ =
        (natChars M ++ '.' :: (natChars m ++ '.' :: natChars p)) ++
          '-' :: dotJoin ((i :: pis).map preIdChars) := by
      simp [versionChars, List.append_assoc]
    rw [hshape]
    rw [splitFirst_append_cons _ ?hnodash]
    case hnodash =>
      simp only [List.mem_append, List.mem_cons, not_or]
      exact ⟨natChars_not_mem_dash M, by decide, natChars_not_mem_dash m,
        by decide, natChars_not_mem_dash p⟩
    simp only [Option.bind_eq_bind, bind, Option.bind, parseCore_roundtrip]
    rw [parsePre_roundtrip (by simp) hwf]

theorem parseVersion_wf {s : List Char} {v : Version}
    (h : parseVersion s = some v) : v.wf := by
  unfold parseVersion at h
  split at h
  · exact absurd h (by simp)
  · split at h
    · rcases e : parseCore s with - | t
      · rw [e] at h; exact absurd h (by simp)
      · rw [e] at h
        simp only [Option.map_some', Option.some.injEq] at h
        subst h
        intro i hi
        simp at hi
    · rename_i core preStr heq
      simp only [Option.bind_eq_bind, bind, Option.bind] at h
      rcases e : parseCore core with - | t
      · rw [e] at h; exact absurd h (by simp)
      · rw [e] at h
        rcases e2 : parsePre preStr with - | pre
        · rw [e2] at h; exact absurd h (by simp)
        · rw [e2] at h
          simp only [Option.some.injEq] at h
          subst h
          intro i hi
          obtain ⟨b, -, hb⟩ := optionMapA_mem e2 i hi
          exact parsePreId_wf hb

/-! Domain model, embedded from `src/errors.rs`, `src/models/` and
`src/entities/`. -/

/-- Error type from `src/errors.rs` (`UhpmError`).  Variant payloads are the
formatted message text; the `IoError` payload keeps the rendered message. -/
inductive UhpmError where
  | PackageNotFound (msg : List Char)
  | InstallationNotFound (msg : List Char)
  | ResolutionError (msg : List Char)
  | DependencyConflict (msg : List Char)
  | RepositoryUnavailable (msg : List Char)
  | PackageAlreadyInstalled (msg : List Char)
  | NoNewVersion (msg : List Char)
  | PackageIsActive
  | ValidationError (msg : List Char)
  | InvalidPackage (path : List Char)
  | ChecksumMismatch (msg : List Char)
  | UnsupportedTarget (msg : List Char)
  | InstallationError (msg : List Char)
  | SymlinkError (msg : List Char)
  | RemovalError (msg : List Char)
  | SwitchError (msg : List Char)
  | NetworkError (msg : List Char)
  | DownloadError (msg : List Char)
  | RepositoryCorrupted (msg : List Char)
  | DatabaseError (msg : List Char)
  | StorageError (msg : List Char)
  | CacheError (msg : List Char)
  | ConfigError (msg : List Char)
  | InvalidConfig (msg : List Char)
  | IoError (msg : List Char)
  | FileSystemError (msg : List Char)
  | PermissionError (msg : List Char)
  | SerializationError (msg : List Char)
  | DeserializationError (msg : List Char)
  | ExternalToolError (msg : List Char)
deriving DecidableEq

/-- Dependency kinds from `src/models/dependency.rs`. -/
inductive DependencyKind where
  | Required
  | Optional
  | Build
  | Dev
deriving DecidableEq

/-- Version requirement from `src/models/dependency.rs`.  The inner
`semver::VersionReq` is external to the repository and is only ever consulted
through `matches`, so it is represented by its matching predicate. -/
structure VersionConstraint where
  requirement : Version → Bool

/-- Dependency record from `src/models/dependency.rs`. -/
structure Dependency where
  name : List Char
  constraint : VersionConstraint
  kind : DependencyKind
  provides : Option (List Char)
  features : List (List Char)

/-- `Dependency::matches_version`. -/
def Dependency.matches_version (d : Dependency) (v : Version) : Bool :=
  d.constraint.requirement v

/-- `PackageReference` from `src/entities/package.rs` (the copy in
`src/models/package.rs` is identical but not reachable from `lib.rs`). -/
structure PackageReference where
  name : List Char
  version : Version
deriving DecidableEq

/-- `Display for PackageReference`: the canonical form `name@version`. -/
def PackageReference.toChars (r : PackageReference) : List Char :=
  r.name ++ '@' :: versionChars r.version

/-- `PackageReference::id`, same text as the display form. -/
def PackageReference.refId (r : PackageReference) : List Char :=
  r.name ++ '@' :: versionChars r.version

/-- `TryFrom<&str> for PackageReference`: split on every `@`, demand exactly
two fields, and parse the second as a version.  The semver error text
interpolated into the second message is not modelled. -/
def PackageReference.try_from (s : List Char) : Except (List Char) PackageReference :=
  match splitOnChar '@' s with
  | [a, b] =>
    match parseVersion b with
    | some v => .ok ⟨a, v⟩
    | none => .error ("Invalid version in package reference: ".data)
  | _ => .error ("Invalid package reference format: ".data ++ s)

/-- `PackageId` from `src/entities/package.rs`: the string `name@version`. -/
structure PackageId where
  chars : List Char
deriving DecidableEq

/-- `PackageId::new`. -/
def PackageId.new (name : List Char) (v : Version) : PackageId :=
  ⟨name ++ '@' :: versionChars v⟩

/-- `PackageId::as_str`. -/
def PackageId.as_str (p : PackageId) : List Char := p.chars

/-- Operating system tag from `src/models/target.rs`. -/
inductive OperatingSystem where
  | Linux
  | MacOS
  | Custom (s : List Char)
deriving DecidableEq

/-- Architecture tag from `src/models/target.rs`. -/
inductive Architecture where
  | X86_64
  | Aarch64
  | Custom (s : List Char)
deriving DecidableEq

/-- Target platform from `src/models/target.rs`. -/
structure Target where
  os : OperatingSystem
  arch : Architecture
deriving DecidableEq

/-- `Target::current` (the build target is fixed in the model). -/
def Target.current : Target := ⟨.Linux, .X86_64⟩

/-- Package source from `src/entities/package.rs`. -/
inductive PackageSource where
  | Git (url : List Char) (release : Option (List Char))
  | Http (url : List Char)
  | Local (path : List Char)
deriving DecidableEq

/-- Checksum record from `src/entities/package.rs`. -/
structure Checksum where
  algorithm : List Char
  hash : List Char
deriving DecidableEq

/-- Package entity from `src/entities/package.rs` (the crate's `Package`).
The dependency `HashSet` is modelled as a list. -/
structure Package where
  id : PackageId
  name : List Char
  version : Version
  author : List Char
  source : PackageSource
  target : Target
  checksum : Option Checksum
  dependencies : List Dependency
  installed : Bool
  active : Bool

/-- `Package::is_active`. -/
def Package.is_active (p : Package) : Bool := p.active

/-- `Package::is_installed`. -/
def Package.is_installed (p : Package) : Bool := p.installed

/-- Repository index entry from `src/models/repository.rs`. -/
structure RepositoryPackageEntry where
  name : List Char
  versions : List (List Char)
deriving DecidableEq

/-- Repository index from `src/models/repository.rs`. -/
structure RepositoryIndex where
  name : List Char
  url : List Char
  packages : List RepositoryPackageEntry
deriving DecidableEq

/-- `RepositoryIndex::get_versions`: first entry with the given name. -/
def RepositoryIndex.get_versions (idx : RepositoryIndex) (pkg : List Char) :
    Option (List (List Char)) :=
  (idx.packages.find? (fun p => p.name == pkg)).map (fun p => p.versions)

/-- `RepositoryIndex::latest_satisfying`: parse the stored strings (dropping
unparseable ones), sort ascending, and take the greatest version matching the
dependency constraint, rendered back to a string. -/
def RepositoryIndex.latest_satisfying (idx : RepositoryIndex) (dep : Dependency) :
    Option (List Char) :=
  match idx.get_versions dep.name with
  | none => none
  | some versions =>
    let parsed := (versions.filterMap parseVersion).insertionSort vle
    (parsed.reverse.find? (fun v => dep.matches_version v)).map versionChars

/-! Helper lemmas about descending scans, sorted lists, and `Vec::dedup_by`. -/

theorem find_desc_max {r : α → α → Prop} (hrefl : ∀ a, r a a) {p : α → Bool} :
    ∀ {l : List α}, List.Pairwise (fun a b => r b a) l →
      ∀ {x : α}, l.find? p = some x → ∀ y ∈ l, p y = true → r y x := by
  intro l
  induction l with
  | nil => intro _ x hf; simp at hf
  | cons a t ih =>
    intro hp x hf y hy hpy
    obtain ⟨ha, ht⟩ := List.pairwise_cons.mp hp
    cases e : p a with
    | true =>
      rw [List.find?_cons_of_pos _ e] at hf
      obtain rfl : a = x := by simpa using hf
      rcases List.mem_cons.mp hy with rfl | hy
      · exact hrefl y
      · exact ha y hy
    | false =>
      rw [List.find?_cons_of_neg _ (by simp [e])] at hf
      rcases List.mem_cons.mp hy with rfl | hy
      · rw [hpy] at e; exact absurd e (by simp)
      · exact ih ht hf y hy hpy

theorem sorted_getLast_max {r : α → α → Prop} (hrefl : ∀ a, r a a) :
    ∀ {l : List α}, List.Pairwise r l → ∀ {m : α}, l.getLast? = some m →
      ∀ x ∈ l, r x m := by
  intro l
  induction l with
  | nil => intro _ m hm; simp at hm
  | cons a t ih =>
    intro hp m hm x hx
    obtain ⟨ha, ht⟩ := List.pairwise_cons.mp hp
    cases t with
    | nil =>
      obtain rfl : a = m := by simpa using hm
      rcases List.mem_singleton.mp hx with rfl
      exact hrefl x
    | cons b t' =>
      rw [List.getLast?_cons_cons] at hm
      rcases List.mem_cons.mp hx with rfl | hx
      · have hmmem : m ∈ b :: t' := List.mem_of_getLast?_eq_some hm
        exact ha m hmmem
      · exact ih ht hm x hx

/-- Inner loop of `Vec::dedup_by`: `prev` is the last retained element. -/
def dedupByAux (same : α → α → Bool) : α → List α → List α
  | _, [] => []
  | prev, y :: ys =>
    if same y prev then dedupByAux same prev ys
    else y :: dedupByAux same y ys

/-- `Vec::dedup_by`: drop each element equivalent to the last retained one. -/
def dedupBy (same : α → α → Bool) : List α → List α
  | [] => []
  | x :: xs => x :: dedupByAux same x xs

theorem dedupByAux_sublist (same : α → α → Bool) :
    ∀ (l : List α) (prev : α), List.Sublist (dedupByAux same prev l) l := by
  intro l
  induction l with
  | nil => intro prev; simp [dedupByAux]
  | cons y ys ih =>
    intro prev
    simp only [dedupByAux]
    split
    · exact (ih prev).cons y
    · exact (ih y).cons₂ y

theorem dedupBy_sublist (same : α → α → Bool) (l : List α) :
    List.Sublist (dedupBy same l) l := by
  cases l with
  | nil => simp [dedupBy]
  | cons x xs => exact (dedupByAux_sublist same xs x).cons₂ x

theorem dedupByAux_head_not_same (same : α → α → Bool) :
    ∀ (l : List α) (prev z : α), (dedupByAux same prev l).head? = some z →
      same z prev = false := by
  intro l
  induction l with
  | nil => intro prev z h; simp [dedupByAux] at h
  | cons y ys ih =>
    intro prev z h
    simp only [dedupByAux] at h
    split at h
    · exact ih prev z h
    · obtain rfl : y = z := by simpa using h
      rename_i hcond
      simpa using hcond

theorem dedupByAux_chain (same : α → α → Bool) :
    ∀ (l : List α) (prev : α),
      List.Chain' (fun a b => same b a = false) (dedupByAux same prev l) := by
  intro l
  induction l with
  | nil => intro prev; simp [dedupByAux]
  | cons y ys ih =>
    intro prev
    simp only [dedupByAux]
    split
    · exact ih prev
    · refine List.chain'_cons'.mpr ⟨?_, ih y⟩
      intro z hz
      exact dedupByAux_head_not_same same ys y z hz

theorem dedupBy_chain (same : α → α → Bool) (l : List α) :
    List.Chain' (fun a b => same b a = false) (dedupBy same l) := by
  cases l with
  | nil => simp [dedupBy]
  | cons x xs =>
    refine List.chain'_cons'.mpr ⟨?_, dedupByAux_chain same xs x⟩
    intro z hz
    exact dedupByAux_head_not_same same xs x z hz

/-- Specification of `RepositoryIndex::latest_satisfying` when the index has
an entry: the result is empty exactly when no parseable stored version
matches, and otherwise renders a matching version that dominates all matching
versions. -/
theorem latest_satisfying_spec (idx : RepositoryIndex) (dep : Dependency)
    (vs : List (List Char)) (h : idx.get_versions dep.name = some vs) :
    (idx.latest_satisfying dep = none ↔
      (vs.filterMap parseVersion).filter (fun v => dep.matches_version v) = []) ∧
    (∀ s, idx.latest_satisfying dep = some s →
      ∃ v, s = versionChars v ∧
        v ∈ (vs.filterMap parseVersion).filter (fun v => dep.matches_version v) ∧
        ∀ u ∈ (vs.filterMap parseVersion).filter (fun v => dep.matches_version v),
          vle u v) := by
  have hperm := List.perm_insertionSort vle (vs.filterMap parseVersion)
  have hsorted := List.sorted_insertionSort vle (vs.filterMap parseVersion)
  have hrev : List.Pairwise (fun a b => vle b a)
      ((vs.filterMap parseVersion).insertionSort vle).reverse :=
    List.pairwise_reverse.mpr hsorted
  have hmem : ∀ v, v ∈ ((vs.filterMap parseVersion).insertionSort vle).reverse ↔
      v ∈ vs.filterMap parseVersion := by
    intro v
    rw [List.mem_reverse]
    exact hperm.mem_iff
  constructor
  · rw [RepositoryIndex.latest_satisfying, h]
    simp only [Option.map_eq_none', List.find?_eq_none, List.filter_eq_nil_iff]
    constructor
    · intro hnone v hv
      simpa using hnone v ((hmem v).mpr hv)
    · intro hnone v hv
      simpa using hnone v ((hmem v).mp hv)
  · intro s hs
    rw [RepositoryIndex.latest_satisfying, h] at hs
    simp only [Option.map_eq_some'] at hs
    obtain ⟨v, hfind, rfl⟩ := hs
    refine ⟨v, rfl, ?_, ?_⟩
    · rw [List.mem_filter]
      refine ⟨(hmem v).mp (List.mem_of_find?_eq_some hfind), ?_⟩
      exact List.find?_some hfind
    · intro u hu
      rw [List.mem_filter] at hu
      exact find_desc_max vle_refl hrev hfind u ((hmem u).mpr hu.1) hu.2

/-! Paths and the filesystem port.  Paths are the `List Char` of their textual
form; `PathBuf::join` with an absolute right-hand side replaces the path. -/

/-- `PathBuf::join` on textual paths. -/
def pathJoin (p q : List Char) : List Char :=
  if q.head? = some '/' then q else p ++ '/' :: q

/-- Path components (empty segments and the root are dropped). -/
def pathComponents (p : List Char) : List (List Char) :=
  (splitOnChar '/' p).filter (fun s => !s.isEmpty)

/-- Whether the textual path is absolute. -/
def pathIsAbsolute (p : List Char) : Bool := p.head? == some '/'

/-- Test that `q` is a leading run of `p` (componentwise). -/
def segsLead : List (List Char) → List (List Char) → Bool
  | _, [] => true
  | [], _ :: _ => false
  | a :: as, b :: bs => a == b && segsLead as bs

/-- `Path::starts_with`: componentwise, including the root component, so
`/binx` does not start with `/bin` and a relative path never starts with an
absolute one. -/
def pathStartsWith (p base : List Char) : Bool :=
  (pathIsAbsolute p == pathIsAbsolute base) &&
    segsLead (pathComponents p) (pathComponents base)

/-- `Path::parent` on textual paths: drop the last component. -/
def pathParent (p : List Char) : Option (List Char) :=
  match splitFirst '/' p.reverse with
  | none => if p.isEmpty then none else some []
  | some t => some t.2.reverse

/-- Symlink type from `src/models/symlink.rs`. -/
inductive SymlinkType where
  | File
  | Directory
deriving DecidableEq

/-- Symlink record from `src/models/symlink.rs`.  The `metadata` field only
carries wall-clock timestamps and optional ownership strings; it is not
modelled. -/
structure Symlink where
  source : List Char
  target : List Char
  link_type : SymlinkType
deriving DecidableEq

/-- `Symlink::validate`. -/
def Symlink.validate (s : Symlink) : Except UhpmError Unit :=
  if s.source.isEmpty then
    .error (.ValidationError ("Symlink source cannot be empty".data))
  else if s.target.isEmpty then
    .error (.ValidationError ("Symlink target cannot be empty".data))
  else if s.source == s.target then
    .error (.ValidationError ("Symlink source and target cannot be the same".data))
  else .ok ()

/-- The prohibited system-directory list from
`InstallationFactory::is_system_directory`. -/
def system_dirs : List (List Char) :=
  ["/bin".data, "/sbin".data, "/usr/bin".data, "/usr/sbin".data,
    "/lib".data, "/usr/lib".data, "/etc".data, "/var".data]

/-- `InstallationFactory::is_system_directory`. -/
def is_system_directory (p : List Char) : Bool :=
  system_dirs.any (fun d => pathStartsWith p d)

/-- `InstallationFactory::validate_symlink`: basic symlink validation followed
by the emptiness re-checks and the system-directory safety rule. -/
def InstallationFactory.validate_symlink (s : Symlink) : Except UhpmError Unit :=
  match s.validate with
  | .error e => .error e
  | .ok _ =>
    if s.source.isEmpty then
      .error (.ValidationError ("Symlink source cannot be empty".data))
    else if s.target.isEmpty then
      .error (.ValidationError ("Symlink target cannot be empty".data))
    else if is_system_directory s.target then
      .error (.ValidationError
        (("Cannot create symlink to system directory: ".data) ++ s.target))
    else .ok ()

/-- Metadata reply of the filesystem port. -/
structure FileMeta where
  isDir : Bool
deriving DecidableEq

/-- Read-only view of the filesystem port (`FileSystemOperations`):
existence and reads are total observations, while `metaOf` answering `none`
models a `metadata` call replying `Err`. -/
structure FSView where
  pathExists : List Char → Bool
  readFile : List Char → List Char
  metaOf : List Char → Option FileMeta

/-- Filesystem operations issued while materializing an install list. -/
inductive FsOp where
  | createDirAll (path : List Char)
  | createSymlink (link : Symlink)
  | copyFile (source : List Char) (target : List Char)
deriving DecidableEq

/-! `PackageFilesRepository` path layout (`src/repositories/package_files.rs`).
`get_package_path` joins the full id string `name@version` as one component
below `packages_dir`. -/

/-- `PackageFilesRepository::get_package_path`. -/
def PackageFilesRepository.get_package_path (packages_dir : List Char)
    (pid : PackageId) : List Char :=
  pathJoin packages_dir pid.as_str

/-- `PackageFilesRepository::get_package_meta_path`. -/
def PackageFilesRepository.get_package_meta_path (packages_dir : List Char)
    (pid : PackageId) : List Char :=
  pathJoin (PackageFilesRepository.get_package_path packages_dir pid) ("meta.toml".data)

/-- `PackageFilesRepository::get_package_instlist_path`. -/
def PackageFilesRepository.get_package_instlist_path (packages_dir : List Char)
    (pid : PackageId) : List Char :=
  pathJoin (PackageFilesRepository.get_package_path packages_dir pid) ("instlist".data)

/-- `LocalPackagesRepository::get_package_meta_path`: note the different
layout, `packages_dir/{name}/{version}/meta.toml`. -/
def LocalPackagesRepository.get_package_meta_path (packages_dir : List Char)
    (r : PackageReference) : List Char :=
  pathJoin (pathJoin (pathJoin packages_dir r.name) (versionChars r.version))
    ("meta.toml".data)

/-! Install-list parsing, from `PackageFilesRepository::load_package_instlist`.
Rust `str::trim`, `split_whitespace` and `lines` are modelled on the ASCII
whitespace they meet in this format. -/

/-- ASCII whitespace recogniser standing in for `char::is_whitespace`. -/
def isWsChar (c : Char) : Bool :=
  c == ' ' || c == '\t' || c == '\r' || c == '\n'

/-- `str::trim`. -/
def trimChars (s : List Char) : List Char :=
  ((s.dropWhile isWsChar).reverse.dropWhile isWsChar).reverse

/-- Accumulator loop of `str::split_whitespace`. -/
def splitWsAux : List Char → List Char → List (List Char)
  | [], acc => if acc.isEmpty then [] else [acc.reverse]
  | c :: cs, acc =>
    if isWsChar c then
      if acc.isEmpty then splitWsAux cs []
      else acc.reverse :: splitWsAux cs []
    else splitWsAux cs (c :: acc)

/-- `str::split_whitespace`: maximal nonempty runs of non-whitespace. -/
def splitWs (s : List Char) : List (List Char) := splitWsAux s []

/-- Drop one trailing carriage return, as `str::lines` does per line. -/
def stripTrailingCr (l : List Char) : List Char :=
  if l.getLast? = some '\r' then l.dropLast else l

/-- `str::lines`: split on newlines; a trailing newline adds no empty line. -/
def rustLines (s : List Char) : List (List Char) :=
  let ls := splitOnChar '\n' s
  (if ls.getLast? = some [] then ls.dropLast else ls).map stripTrailingCr

/-- One iteration of the instlist loop: trim, skip blanks and `#` comments,
demand exactly two whitespace-separated fields, resolve the source against
the package path and infer the link type from the source metadata. -/
def parseInstLine (fs : FSView) (package_path : List Char) (line : List Char) :
    Option Symlink :=
  let t := trimChars line
  if t.isEmpty || t.head? == some '#' then none
  else
    match splitWs t with
    | [srcRel, tgtAbs] =>
      let sourceAbsolute := pathJoin package_path srcRel
      let link_type :=
        match fs.metaOf sourceAbsolute with
        | some m => if m.isDir then SymlinkType.Directory else SymlinkType.File
        | none => SymlinkType.File
      some ⟨sourceAbsolute, tgtAbs, link_type⟩
    | _ => none

/-- `PackageFilesRepository::load_package_instlist`: an absent file yields an
empty list; otherwise every well-formed line yields one symlink and every
other line is skipped.  The only error paths of the original (a failing read
or invalid UTF-8) lie outside the total port model. -/
def load_package_instlist (fs : FSView) (packages_dir : List Char)
    (pid : PackageId) : Except UhpmError (List Symlink) :=
  let instlist_path := PackageFilesRepository.get_package_instlist_path packages_dir pid
  let package_path := PackageFilesRepository.get_package_path packages_dir pid
  if !(fs.pathExists instlist_path) then .ok []
  else
    .ok ((rustLines (fs.readFile instlist_path)).filterMap
      (parseInstLine fs package_path))

/-- `PackageFilesRepository::create_symlinks_from_instlist`: load the list and
create every entry, creating parent directories first.  No validation is
applied to the targets.  The issued filesystem operations are returned as an
effect log. -/
def create_symlinks_from_instlist (fs : FSView) (packages_dir : List Char)
    (pid : PackageId) : Except UhpmError (List Symlink) × List FsOp :=
  match load_package_instlist fs packages_dir pid with
  | .error e => (.error e, [])
  | .ok symlinks =>
    (.ok symlinks,
      symlinks.flatMap (fun s =>
        (match pathParent s.target with
          | some d => [FsOp.createDirAll d]
          | none => []) ++ [FsOp.createSymlink s]))

/-! Cache and network ports (`src/ports/cache_manager.rs`, `network.rs`),
as explicit state.  Byte buffers are `List Nat`. -/

/-- Cache state: archives keyed by reference, indices keyed by URL, newest
entry first.  Writes always succeed in the model. -/
structure CacheState where
  packages : List (PackageReference × List Nat)
  indices : List (List Char × List Nat)

/-- `CacheManager::get_package`. -/
def CacheState.get_package (c : CacheState) (r : PackageReference) :
    Option (List Nat) :=
  (c.packages.find? (fun p => p.1 == r)).map (fun p => p.2)

/-- `CacheManager::put_package`. -/
def CacheState.put_package (c : CacheState) (r : PackageReference)
    (data : List Nat) : CacheState :=
  { c with packages := (r, data) :: c.packages }

/-- `CacheManager::has_package`. -/
def CacheState.has_package (c : CacheState) (r : PackageReference) : Bool :=
  (c.get_package r).isSome

/-- Network port: a GET that always answers with the served bytes (the
checksum claim concerns a server that answers, with altered content). -/
structure NetView where
  get : List Char → List Nat

/-- `str::trim_end_matches('/')`. -/
def trimEndSlashes (s : List Char) : List Char :=
  (s.reverse.dropWhile (fun c => c == '/')).reverse

/-- Remote repository configuration (`RemotePackagesRepository.base_url`). -/
structure RemotePackagesRepository where
  base_url : List Char

/-- `RemotePackagesRepository::get_package_download_url`. -/
def RemotePackagesRepository.get_package_download_url
    (repo : RemotePackagesRepository) (r : PackageReference) : List Char :=
  trimEndSlashes repo.base_url ++ "/packages/".data ++ r.name ++ "-".data ++
    versionChars r.version ++ ".uhp".data

/-- `RemotePackagesRepository::get_package_meta_url`. -/
def RemotePackagesRepository.get_package_meta_url
    (repo : RemotePackagesRepository) (r : PackageReference) : List Char :=
  trimEndSlashes repo.base_url ++ "/packages/".data ++ r.name ++ "-".data ++
    versionChars r.version ++ "-meta.toml".data

/-- `RemotePackagesRepository::download_package`: serve from cache when
present, otherwise GET the archive and cache the bytes.  The function applies
no checksum verification whatsoever. -/
def RemotePackagesRepository.download_package (repo : RemotePackagesRepository)
    (net : NetView) (cache : CacheState) (r : PackageReference) :
    Except UhpmError (List Nat) × CacheState :=
  match cache.get_package r with
  | some cached => (.ok cached, cache)
  | none =>
    let data := net.get (repo.get_package_download_url r)
    (.ok data, cache.put_package r data)

/-- Decoded remote metadata (`RemotePackageMeta` after TOML decoding, with
its dependency strings already run through `parse_dependency`; both decoding
steps live in external crates). -/
structure RemoteMeta where
  name : List Char
  author : List Char
  description : Option (List Char)
  dependencies : List Dependency
  provides : Option (List (List Char))
  conflicts : Option (List (List Char))
  checksum_algorithm : Option (List Char)
  checksum_hash : Option (List Char)

/-- The remote repository's observable world: the decoded index served for
`get_index`, and the decoded metadata served for each meta URL (`none` models
an unanswered or undecodable meta file). -/
structure RemoteWorld where
  index : RepositoryIndex
  meta : PackageReference → Option RemoteMeta

/-- `RemotePackagesRepository::get_package`: build a `Package` from the
remote metadata, with the version taken from the reference, an `Http` source
pointing at the archive URL, and the checksum defaulting to `sha256`. -/
def RemotePackagesRepository.get_package (repo : RemotePackagesRepository)
    (w : RemoteWorld) (r : PackageReference) : Except UhpmError Package :=
  match w.meta r with
  | none => .error (.NetworkError (repo.get_package_meta_url r))
  | some m =>
    .ok
      { id := PackageId.new m.name r.version
        name := m.name
        version := r.version
        author := m.author
        source := .Http (repo.get_package_download_url r)
        target := Target.current
        checksum :=
          some ⟨m.checksum_algorithm.getD ("sha256".data), m.checksum_hash.getD []⟩
        dependencies := m.dependencies
        installed := false
        active := false }

/-- `RemotePackagesRepository::get_package_versions`: the stored entry of the
index, unsorted. -/
def RemotePackagesRepository.get_package_versions (w : RemoteWorld)
    (package_name : List Char) : Except UhpmError (List (List Char)) :=
  match w.index.get_versions package_name with
  | some versions => .ok versions
  | none => .error (.PackageNotFound package_name)

/-- `RemotePackagesRepository::get_latest_version`: the last element of the
stored entry, in stored order. -/
def RemotePackagesRepository.get_latest_version (w : RemoteWorld)
    (package_name : List Char) : Except UhpmError (List Char) :=
  match RemotePackagesRepository.get_package_versions w package_name with
  | .error e => .error e
  | .ok versions =>
    match versions.getLast? with
    | some v => .ok v
    | none => .error (.PackageNotFound package_name)

/-- `RemotePackagesRepository::resolve_dependencies`: one pass over the given
dependencies; each is resolved through `latest_satisfying` and fetched, and
nothing is enqueued for the dependencies of the fetched packages.  The
interpolated error texts (requirement display, semver error) are not
modelled. -/
def RemotePackagesRepository.resolve_dependencies
    (repo : RemotePackagesRepository) (w : RemoteWorld) :
    List Dependency → Except UhpmError (List Package)
  | [] => .ok []
  | dep :: rest =>
    match w.index.latest_satisfying dep with
    | some version_str =>
      match parseVersion version_str with
      | none => .error (.ValidationError version_str)
      | some version =>
        match repo.get_package w ⟨dep.name, version⟩ with
        | .error e => .error e
        | .ok p =>
          match RemotePackagesRepository.resolve_dependencies repo w rest with
          | .error e => .error e
          | .ok ps => .ok (p :: ps)
    | none =>
      .error (.ResolutionError (("Cannot resolve dependency: ".data) ++ dep.name))

/-! Local repository (`src/repositories/local_packages.rs`) over a directory
listing view, together with the parts of `PackageFactory` it calls. -/

/-- Decoded `meta.toml` (`PackageMeta` after TOML decoding, dependencies
already run through `parse_dependency`). -/
structure LocalMeta where
  name : List Char
  author : List Char
  dependencies : List Dependency

/-- The local repository's observable world: the filesystem view, the
directory listing (file names of `read_dir`, which always succeeds in the
model), and the decoded metadata per reference (`none` models a file that
does not decode). -/
structure LocalWorld where
  fs : FSView
  dirEntries : List Char → List (List Char)
  meta : PackageReference → Option LocalMeta

/-- String order used by `sort_by` over version strings: compare the parsed
versions (the original unwraps; every sorted string has parsed already). -/
def strVle (a b : List Char) : Prop :=
  vle ((parseVersion a).getD ⟨0, 0, 0, []⟩) ((parseVersion b).getD ⟨0, 0, 0, []⟩)

instance : DecidableRel strVle := fun _ _ =>
  inferInstanceAs (Decidable (vle _ _))

instance : IsTotal (List Char) strVle := ⟨fun _ _ => vle_total _ _⟩

instance : IsTrans (List Char) strVle := ⟨fun _ _ _ h1 h2 => vle_trans h1 h2⟩

/-- `LocalPackagesRepository::get_package_versions`: the subdirectory names
of `packages_dir/{name}` that parse as versions, sorted ascending by the
parsed version. -/
def LocalPackagesRepository.get_package_versions (w : LocalWorld)
    (packages_dir package_name : List Char) : List (List Char) :=
  let package_dir := pathJoin packages_dir package_name
  let versions :=
    if w.fs.pathExists package_dir then
      (w.dirEntries package_dir).filter (fun s => (parseVersion s).isSome)
    else []
  versions.insertionSort strVle

/-- `LocalPackagesRepository::get_latest_version`. -/
def LocalPackagesRepository.get_latest_version (w : LocalWorld)
    (packages_dir package_name : List Char) : Except UhpmError (List Char) :=
  match (LocalPackagesRepository.get_package_versions w packages_dir package_name).getLast? with
  | some v => .ok v
  | none => .error (.PackageNotFound package_name)

/-- `str::starts_with` on strings. -/
def strLeads (s q : List Char) : Bool := s.take q.length == q

/-- `str::contains(&str)`: substring search. -/
def strContainsSub : List Char → List Char → Bool
  | [], needle => needle.isEmpty
  | c :: t, needle => strLeads (c :: t) needle || strContainsSub t needle

/-- `PackageFactory::is_valid_package_name`. -/
def PackageFactory.is_valid_package_name (name : List Char) : Bool :=
  !name.isEmpty && name.length ≤ 50 &&
    name.all (fun c => c.isAlphanum || c == '-' || c == '_') &&
    (match name.head? with
      | some c => c.isAlpha
      | none => false)

/-- `PackageFactory::validate_source`. -/
def PackageFactory.validate_source : PackageSource → Except UhpmError Unit
  | .Git url _ =>
    if (trimChars url).isEmpty then
      .error (.ValidationError ("Git URL cannot be empty".data))
    else if !(strLeads url ("http://".data) || strLeads url ("https://".data) ||
        strLeads url ("git@".data)) then
      .error (.ValidationError ("Git URL must be http, https, or git@ format".data))
    else .ok ()
  | .Http url =>
    if (trimChars url).isEmpty then
      .error (.ValidationError ("HTTP URL cannot be empty".data))
    else if !(strLeads url ("http://".data) || strLeads url ("https://".data)) then
      .error (.ValidationError ("HTTP URL must start with http or https".data))
    else .ok ()
  | .Local path =>
    if path.isEmpty then
      .error (.ValidationError ("Local path cannot be empty".data))
    else .ok ()

/-- `PackageFactory::create`: validation then record assembly.  The message
texts with interpolations are shortened to their fixed part. -/
def PackageFactory.create (name : List Char) (version : Version)
    (author : List Char) (source : PackageSource) (target : Target)
    (checksum : Option Checksum) (dependencies : List Dependency) :
    Except UhpmError Package :=
  if (trimChars name).isEmpty then
    .error (.ValidationError ("Package name cannot be empty or whitespace".data))
  else if !(PackageFactory.is_valid_package_name name) then
    .error (.ValidationError (("Invalid package name ".data) ++ name))
  else if (trimChars author).isEmpty then
    .error (.ValidationError ("Package author cannot be empty".data))
  else if strContainsSub (dotJoin (version.pre.map preIdChars)) ("broken".data) ||
      strContainsSub (dotJoin (version.pre.map preIdChars)) ("unstable".data) then
    .error (.ValidationError
      ("Version pre-release tags cannot contain broken or unstable".data))
  else
    match PackageFactory.validate_source source with
    | .error e => .error e
    | .ok _ =>
      .ok
        { id := PackageId.new name version
          name := name
          version := version
          author := author
          source := source
          target := target
          checksum := checksum
          dependencies := dependencies
          installed := false
          active := false }

/-- `LocalPackagesRepository::get_package`: check the meta file exists, decode
it, and build the package through the factory with a `Local` source. -/
def LocalPackagesRepository.get_package (w : LocalWorld)
    (packages_dir : List Char) (r : PackageReference) : Except UhpmError Package :=
  let meta_path := LocalPackagesRepository.get_package_meta_path packages_dir r
  if !(w.fs.pathExists meta_path) then .error (.PackageNotFound r.toChars)
  else
    match w.meta r with
    | none => .error (.DeserializationError [])
    | some meta =>
      PackageFactory.create meta.name r.version meta.author
        (.Local (pathJoin (pathJoin packages_dir r.name) (versionChars r.version)))
        Target.current none meta.dependencies

/-- `LocalPackagesRepository::resolve_dependencies`: one pass over the given
dependencies; for each, scan the ascending version listing from the top for
the first parseable version matching the constraint, fetch that package, and
recurse into nothing. -/
def LocalPackagesRepository.resolve_dependencies (w : LocalWorld)
    (packages_dir : List Char) :
    List Dependency → Except UhpmError (List Package)
  | [] => .ok []
  | dep :: rest =>
    let versions := LocalPackagesRepository.get_package_versions w packages_dir dep.name
    match versions.reverse.find?
        (fun v =>
          match parseVersion v with
          | some ver => dep.matches_version ver
          | none => false) with
    | some version_str =>
      match parseVersion version_str with
      | none => .error (.ValidationError version_str)
      | some version =>
        match LocalPackagesRepository.get_package w packages_dir ⟨dep.name, version⟩ with
        | .error e => .error e
        | .ok p =>
          match LocalPackagesRepository.resolve_dependencies w packages_dir rest with
          | .error e => .error e
          | .ok ps => .ok (p :: ps)
    | none =>
      .error (.ResolutionError (("Cannot resolve dependency: ".data) ++ dep.name))

/-! Federation service and application layer. -/

/-- Package order used by `sort_by(|a, b| a.name().cmp(b.name()))`. -/
def nameLe (a b : Package) : Prop := cmpList cmpChar a.name b.name ≠ .gt

instance : DecidableRel nameLe := fun a b =>
  inferInstanceAs (Decidable (cmpList cmpChar a.name b.name ≠ .gt))

instance : IsTotal Package nameLe :=
  ⟨fun a b => (lawfulCmpList lawfulCmpChar).total a.name b.name⟩

instance : IsTrans Package nameLe :=
  ⟨fun _ _ _ h1 h2 => (lawfulCmpList lawfulCmpChar).le_trans h1 h2⟩

/-- `PackageService::search_all_packages` applied to the two repositories'
search results: concatenate, stable-sort by name, then `dedup_by` on equal
package ids (adjacent only). -/
def PackageService.search_all_packages
    (local_results remote_results : List Package) : List Package :=
  dedupBy (fun a b => a.id == b.id)
    ((local_results ++ remote_results).insertionSort nameLe)

/-- Events of `src/models/events.rs` restricted to the constructors the
modelled code paths emit (the application layer names `RemoveStarted` and
`RemoveCompleted`). -/
inductive PackageEvent where
  | InstallationStarted (package_ref : PackageReference)
  | RemoveStarted (package_ref : PackageReference)
  | RemoveCompleted (package_ref : PackageReference)
  | DownloadStarted (package_ref : PackageReference)
  | DownloadCompleted (package_ref : PackageReference)
deriving DecidableEq

/-- `RemovalResult` from `src/models/operations.rs`. -/
structure RemovalResult where
  package_id : PackageId
  removed_files : Nat
  freed_space : Nat
deriving DecidableEq

/-- The application world of `PackageManager`: its repository lookup.  Event
publication always succeeds in the model. -/
structure ManagerWorld where
  get_package : PackageReference → Except UhpmError Package

/-- Everything `PackageManager::remove` produces: the returned value, the
published events, the filesystem operations issued, and the ledger writes
issued. -/
structure RemoveOutcome where
  result : Except UhpmError RemovalResult
  events : List PackageEvent
  fsOps : List FsOp
  ledgerOps : List (List Char)

/-- `PackageManager::remove`: publish `RemoveStarted`, fetch the package,
refuse with `PackageIsActive` when the package is active, otherwise run
`remove_single_package` (which currently performs no filesystem or ledger
work) and publish `RemoveCompleted`. -/
def PackageManager.remove (w : ManagerWorld) (r : PackageReference) :
    RemoveOutcome :=
  let started := [PackageEvent.RemoveStarted r]
  match w.get_package r with
  | .error e => ⟨.error e, started, [], []⟩
  | .ok package =>
    if package.is_active then ⟨.error .PackageIsActive, started, [], []⟩
    else
      ⟨.ok ⟨package.id, 0, 0⟩,
        started ++ [PackageEvent.RemoveCompleted r], [], []⟩

/-- Verification predicate (spec side, for comparison with the loader): a
line that, after trimming, is neither blank nor a `#` comment and has exactly
two whitespace-separated fields. -/
def effectiveTwoField (l : List Char) : Bool :=
  !((trimChars l).isEmpty || (trimChars l).head? == some '#') &&
    (splitWs (trimChars l)).length == 2

theorem length_filterMap_eq_length_filter (f : α → Option β) :
    ∀ l : List α, (l.filterMap f).length =
      (l.filter (fun x => (f x).isSome)).length := by
  intro l
  induction l with
  | nil => rfl
  | cons x xs ih =>
    cases e : f x with
    | none => simp [List.filterMap_cons, List.filter_cons, e, ih]
    | some b => simp [List.filterMap_cons, List.filter_cons, e, ih]

theorem parseInstLine_isSome (fs : FSView) (pp l : List Char) :
    (parseInstLine fs pp l).isSome = effectiveTwoField l := by
  unfold parseInstLine effectiveTwoField
  cases hc : ((trimChars l).isEmpty || (trimChars l).head? == some '#') with
  | true => simp [hc]
  | false =>
    dsimp only
    rw [hc]
    simp only [Bool.not_false, Bool.true_and, Bool.false_eq_true, if_false]
    cases hs : splitWs (trimChars l) with
    | nil => simp [hs]
    | cons a t =>
      cases t with
      | nil => simp [hs]
      | cons b u =>
        cases u with
        | nil => simp [hs]
        | cons c w => simp [hs]

theorem versionChars_not_mem {v : Version} (hwf : v.wf) {d : Char}
    (hdig : d.isDigit = false) (hdot : d ≠ '.') (hdash : d ≠ '-')
    (hident : identChar d = false) : d ∉ versionChars v := by
  unfold versionChars
  intro hmem
  have hsplit : d ∈ natChars v.major ∨ d = '.' ∨ d ∈ natChars v.minor ∨
      d = '.' ∨ d ∈ natChars v.patch ∨
      d ∈ (if v.pre.isEmpty = true then ([] : List Char)
        else '-' :: dotJoin (v.pre.map preIdChars)) := by
    simpa [List.mem_append, List.mem_cons, or_assoc] using hmem
  rcases hsplit with h1 | h1 | h1 | h1 | h1 | h1
  · exact absurd (natChars_digits _ d h1) (by simp [hdig])
  · exact hdot h1
  · exact absurd (natChars_digits _ d h1) (by simp [hdig])
  · exact hdot h1
  · exact absurd (natChars_digits _ d h1) (by simp [hdig])
  · revert h1
    split
    · simp
    · intro h1
      rcases List.mem_cons.mp h1 with h2 | h2
      · exact hdash h2
      · refine dotJoin_not_mem hdot ?_ h2
        intro p hp
        obtain ⟨i, hi, rfl⟩ := List.mem_map.mp hp
        exact preIdChars_not_mem (hwf i hi) hident

theorem versionChars_not_mem_at {v : Version} (hwf : v.wf) :
    '@' ∉ versionChars v :=
  versionChars_not_mem hwf (by decide) (by decide) (by decide) (by decide)

/-- C7: the components do not agree on the store location.  For the package
id `app@1.0.0`, `PackageFilesRepository` (extraction, instlist loading,
archiving) addresses `packages_dir/app@1.0.0/`, while the local repository
reads `meta.toml` from `packages_dir/app/1.0.0/`; the two meta paths differ. -/
theorem claim_C7_store_path_divergence :
    PackageFilesRepository.get_package_meta_path
        ("/home/user/.uhpm/packages".data)
        (PackageId.new ("app".data) ⟨1, 0, 0, []⟩) =
      ("/home/user/.uhpm/packages/app@1.0.0/meta.toml".data) ∧
    LocalPackagesRepository.get_package_meta_path
        ("/home/user/.uhpm/packages".data) ⟨"app".data, ⟨1, 0, 0, []⟩⟩ =
      ("/home/user/.uhpm/packages/app/1.0.0/meta.toml".data) ∧
    PackageFilesRepository.get_package_meta_path
        ("/home/user/.uhpm/packages".data)
        (PackageId.new ("app".data) ⟨1, 0, 0, []⟩) ≠
      LocalPackagesRepository.get_package_meta_path
        ("/home/user/.uhpm/packages".data) ⟨"app".data, ⟨1, 0, 0, []⟩⟩ :=
  ⟨by decide, by decide, by decide⟩

/-- C8: `PackageManager::remove` on an active package returns the
`PackageIsActive` error and performs no removal: no filesystem operation and
no ledger write is issued, and only the `RemoveStarted` event was published
before the refusal. -/
theorem claim_C8_remove_active_refused (w : ManagerWorld) (r : PackageReference)
    (p : Package) (hg : w.get_package r = .ok p) (ha : p.is_active = true) :
    (PackageManager.remove w r).result = .error .PackageIsActive ∧
    (PackageManager.remove w r).fsOps = [] ∧
    (PackageManager.remove w r).ledgerOps = [] ∧
    (PackageManager.remove w r).events = [PackageEvent.RemoveStarted r] := by
  simp [PackageManager.remove, hg, ha]

/-- C8 witness: the refusal observed on a concrete world whose repository
serves an active `app@2.2.0`. -/
theorem claim_C8_remove_active_refused_witness :
    (PackageManager.remove
        ⟨fun _ => .ok ⟨PackageId.new ("app".data) ⟨2, 2, 0, []⟩, "app".data,
          ⟨2, 2, 0, []⟩, "a".data, .Local ("/x".data), Target.current, none, [],
          true, true⟩⟩
        ⟨"app".data, ⟨2, 2, 0, []⟩⟩).result = .error .PackageIsActive ∧
    (PackageManager.remove
        ⟨fun _ => .ok ⟨PackageId.new ("app".data) ⟨2, 2, 0, []⟩, "app".data,
          ⟨2, 2, 0, []⟩, "a".data, .Local ("/x".data), Target.current, none, [],
          true, true⟩⟩
        ⟨"app".data, ⟨2, 2, 0, []⟩⟩).fsOps = [] ∧
    (PackageManager.remove
        ⟨fun _ => .ok ⟨PackageId.new ("app".data) ⟨2, 2, 0, []⟩, "app".data,
          ⟨2, 2, 0, []⟩, "a".data, .Local ("/x".data), Target.current, none, [],
          true, true⟩⟩
        ⟨"app".data, ⟨2, 2, 0, []⟩⟩).ledgerOps = [] ∧
    (PackageManager.remove
        ⟨fun _ => .ok ⟨PackageId.new ("app".data) ⟨2, 2, 0, []⟩, "app".data,
          ⟨2, 2, 0, []⟩, "a".data, .Local ("/x".data), Target.current, none, [],
          true, true⟩⟩
        ⟨"app".data, ⟨2, 2, 0, []⟩⟩).events =
      [PackageEvent.RemoveStarted ⟨"app".data, ⟨2, 2, 0, []⟩⟩] :=
  claim_C8_remove_active_refused _ _ _ rfl rfl

/-- C10: loading the install list never fails on malformed content: an
absent instlist yields `ok []`, and on a present file the loader returns
`ok` with exactly one entry per line that is effective (neither blank nor a
comment) and has exactly two whitespace-separated fields — every other line
is silently skipped. -/
theorem claim_C10_instlist_total_loader :
    ∀ (fs : FSView) (packages_dir : List Char) (pid : PackageId),
      (fs.pathExists
          (PackageFilesRepository.get_package_instlist_path packages_dir pid) =
            false →
        load_package_instlist fs packages_dir pid = .ok []) ∧
      (fs.pathExists
          (PackageFilesRepository.get_package_instlist_path packages_dir pid) =
            true →
        ∃ entries, load_package_instlist fs packages_dir pid = .ok entries ∧
          entries.length =
            ((rustLines (fs.readFile
              (PackageFilesRepository.get_package_instlist_path packages_dir pid))).filter
                effectiveTwoField).length) := by
  intro fs packages_dir pid
  constructor
  · intro h
    simp [load_package_instlist, h]
  · intro h
    refine ⟨(rustLines (fs.readFile
      (PackageFilesRepository.get_package_instlist_path packages_dir pid))).filterMap
        (parseInstLine fs (PackageFilesRepository.get_package_path packages_dir pid)),
      by simp [load_package_instlist, h], ?_⟩
    rw [length_filterMap_eq_length_filter]
    congr 1
    apply List.filter_congr
    intro l _
    exact parseInstLine_isSome fs _ l

/-- C10 witness: a concrete file with one well-formed line, one malformed
line, a comment and a blank line loads without error with exactly one entry
per well-formed line. -/
theorem claim_C10_instlist_total_loader_witness :
    ∃ entries,
      load_package_instlist
        ⟨fun _ => true, fun _ => ("bin/a /usr/local/a\nmalformed\n# c\n\nx y z w\n".data),
          fun _ => none⟩
        ("/p".data) (PackageId.new ("app".data) ⟨1, 0, 0, []⟩) = .ok entries ∧
      entries.length =
        ((rustLines (FSView.readFile
          ⟨fun _ => true, fun _ => ("bin/a /usr/local/a\nmalformed\n# c\n\nx y z w\n".data),
            fun _ => none⟩
          (PackageFilesRepository.get_package_instlist_path ("/p".data)
            (PackageId.new ("app".data) ⟨1, 0, 0, []⟩)))).filter
              effectiveTwoField).length :=
  (claim_C10_instlist_total_loader
    ⟨fun _ => true, fun _ => ("bin/a /usr/local/a\nmalformed\n# c\n\nx y z w\n".data),
      fun _ => none⟩
    ("/p".data) (PackageId.new ("app".data) ⟨1, 0, 0, []⟩)).2 rfl

/-- C9 counterexample: the round trip fails for the reference whose name is
`a@b` (display gives `a@b@1.0.0`, which splits into three fields). -/
theorem claim_C9_roundtrip_counterexample :
    PackageReference.try_from
        (PackageReference.toChars ⟨"a@b".data, ⟨1, 0, 0, []⟩⟩) ≠
      .ok ⟨"a@b".data, ⟨1, 0, 0, []⟩⟩ := by
  intro h
  have e : PackageReference.try_from
      (PackageReference.toChars ⟨"a@b".data, ⟨1, 0, 0, []⟩⟩) =
      .error (("Invalid package reference format: ".data) ++
        PackageReference.toChars ⟨"a@b".data, ⟨1, 0, 0, []⟩⟩) := by rfl
  rw [e] at h
  exact Except.noConfusion h

/-- C9 (amended): parsing the display form round-trips for every
`PackageReference` whose name contains no `@` — as every name admitted by the
package-name grammar does — and whose version is well-formed. -/
theorem claim_C9_roundtrip (r : PackageReference) (hname : '@' ∉ r.name)
    (hwf : r.version.wf) :
    PackageReference.try_from (PackageReference.toChars r) = .ok r := by
  obtain ⟨name, version⟩ := r
  unfold PackageReference.toChars PackageReference.try_from
  rw [splitOnChar_append_cons _ hname,
    splitOnChar_of_not_mem (versionChars_not_mem_at hwf)]
  simp [parseVersion_roundtrip hwf]

/-- C9 witness: the round trip at `app@1.2.3`. -/
theorem claim_C9_roundtrip_witness :
    PackageReference.try_from
        (PackageReference.toChars ⟨"app".data, ⟨1, 2, 3, []⟩⟩) =
      .ok ⟨"app".data, ⟨1, 2, 3, []⟩⟩ :=
  claim_C9_roundtrip _ (by decide) (fun i hi => absurd hi (List.not_mem_nil i))

/-- C1: `RemotePackagesRepository::download_package` verifies nothing.  With
an empty cache and a server answering bytes `[1, 2, 3]` for the archive of
`app@1.0.0` — whatever checksum the package metadata declares — the call
returns the served bytes as `ok` and updates the cache with them
(`has_package` becomes true), instead of failing with `ChecksumMismatch` and
leaving the cache unchanged. -/
theorem claim_C1_download_without_checksum_verification :
    (RemotePackagesRepository.download_package ⟨"http://repo".data⟩
        ⟨fun _ => [1, 2, 3]⟩ ⟨[], []⟩ ⟨"app".data, ⟨1, 0, 0, []⟩⟩).1 =
      .ok [1, 2, 3] ∧
    CacheState.has_package
      (RemotePackagesRepository.download_package ⟨"http://repo".data⟩
        ⟨fun _ => [1, 2, 3]⟩ ⟨[], []⟩ ⟨"app".data, ⟨1, 0, 0, []⟩⟩).2
      ⟨"app".data, ⟨1, 0, 0, []⟩⟩ = true :=
  ⟨rfl, rfl⟩

/-- C2: the prohibited-prefix rule is implemented by
`InstallationFactory::validate_symlink` but never invoked: materializing an
install list whose entry targets `/bin/tool` succeeds and issues the symlink
creation, even though `validate_symlink` would reject that very symlink with
a validation error. -/
theorem claim_C2_system_dir_rule_not_enforced :
    (create_symlinks_from_instlist
        ⟨fun _ => true, fun _ => ("bin/tool /bin/tool".data), fun _ => none⟩
        ("/p".data) (PackageId.new ("app".data) ⟨1, 0, 0, []⟩)).1 =
      .ok [⟨"/p/app@1.0.0/bin/tool".data, "/bin/tool".data, .File⟩] ∧
    FsOp.createSymlink ⟨"/p/app@1.0.0/bin/tool".data, "/bin/tool".data, .File⟩ ∈
      (create_symlinks_from_instlist
        ⟨fun _ => true, fun _ => ("bin/tool /bin/tool".data), fun _ => none⟩
        ("/p".data) (PackageId.new ("app".data) ⟨1, 0, 0, []⟩)).2 ∧
    InstallationFactory.validate_symlink
        ⟨"/p/app@1.0.0/bin/tool".data, "/bin/tool".data, .File⟩ =
      .error (.ValidationError
        (("Cannot create symlink to system directory: ".data) ++ "/bin/tool".data)) :=
  ⟨rfl, by decide, rfl⟩

/-- C5: `latest_satisfying` computes the maximum satisfying version: when the
index has no entry for the dependency's name the result is `none`; with an
entry it is `none` exactly when no parseable stored version matches the
constraint, and otherwise it renders a matching stored version that
dominates every matching stored version under semantic-version order. -/
theorem claim_C5_latest_satisfying_max (idx : RepositoryIndex) (d : Dependency) :
    (idx.get_versions d.name = none → idx.latest_satisfying d = none) ∧
    ∀ vs, idx.get_versions d.name = some vs →
      (idx.latest_satisfying d = none ↔
        (vs.filterMap parseVersion).filter (fun v => d.matches_version v) = []) ∧
      (∀ s, idx.latest_satisfying d = some s →
        ∃ v, s = versionChars v ∧
          v ∈ (vs.filterMap parseVersion).filter (fun v => d.matches_version v) ∧
          ∀ u ∈ (vs.filterMap parseVersion).filter (fun v => d.matches_version v),
            vle u v) := by
  constructor
  · intro h
    simp [RepositoryIndex.latest_satisfying, h]
  · intro vs h
    exact latest_satisfying_spec idx d vs h

/-- C5 witness: on the entry `["1.0.0", "2.0.0", "1.5.0", "bad"]` with an
always-true constraint, the returned string renders the maximum `2.0.0`. -/
theorem claim_C5_latest_satisfying_max_witness :
    ∃ v, ("2.0.0".data) = versionChars v ∧
      v ∈ ((["1.0.0".data, "2.0.0".data, "1.5.0".data, "bad".data].filterMap
        parseVersion).filter
          (fun v => Dependency.matches_version
            ⟨"a".data, ⟨fun _ => true⟩, .Required, none, []⟩ v)) ∧
      ∀ u ∈ ((["1.0.0".data, "2.0.0".data, "1.5.0".data, "bad".data].filterMap
        parseVersion).filter
          (fun v => Dependency.matches_version
            ⟨"a".data, ⟨fun _ => true⟩, .Required, none, []⟩ v)), vle u v :=
  (((claim_C5_latest_satisfying_max
      ⟨"r".data, "u".data,
        [⟨"a".data, ["1.0.0".data, "2.0.0".data, "1.5.0".data, "bad".data]⟩]⟩
      ⟨"a".data, ⟨fun _ => true⟩, .Required, none, []⟩).2
    (["1.0.0".data, "2.0.0".data, "1.5.0".data, "bad".data]) rfl).2
    ("2.0.0".data) rfl)

/-- C6 counterexample: the remote repository's `get_latest_version` returns
the last stored string, not the semantic-version maximum.  For the entry
`["2.0.0", "1.0.0"]` it answers `1.0.0`, although `2.0.0` is stored and is
strictly greater. -/
theorem claim_C6_remote_latest_counterexample :
    RemotePackagesRepository.get_latest_version
        ⟨⟨"r".data, "u".data, [⟨"a".data, ["2.0.0".data, "1.0.0".data]⟩]⟩,
          fun _ => none⟩
        ("a".data) = .ok ("1.0.0".data) ∧
    RepositoryIndex.get_versions
        ⟨"r".data, "u".data, [⟨"a".data, ["2.0.0".data, "1.0.0".data]⟩]⟩
        ("a".data) = some ["2.0.0".data, "1.0.0".data] ∧
    ¬ vle ⟨2, 0, 0, []⟩ ⟨1, 0, 0, []⟩ :=
  ⟨rfl, rfl, by decide⟩

/-- C6 (amended): the local repository lists versions in ascending
semantic-version order and its `get_latest_version` returns the maximum;
the remote repository's `get_package_versions`/`get_latest_version` use the
index entry in stored order and return its last element, which is the
maximum only when the stored list is ascending. -/
theorem claim_C6_versions_order (w : LocalWorld) (rw : RemoteWorld)
    (packages_dir package_name : List Char) :
    List.Pairwise strVle
      (LocalPackagesRepository.get_package_versions w packages_dir package_name) ∧
    (∀ s, LocalPackagesRepository.get_latest_version w packages_dir package_name =
        .ok s →
      s ∈ LocalPackagesRepository.get_package_versions w packages_dir package_name ∧
      ∀ t ∈ LocalPackagesRepository.get_package_versions w packages_dir package_name,
        strVle t s) ∧
    (∀ s, RemotePackagesRepository.get_latest_version rw package_name = .ok s →
      ∃ vs, rw.index.get_versions package_name = some vs ∧ vs.getLast? = some s) := by
  refine ⟨?_, ?_, ?_⟩
  · exact List.sorted_insertionSort strVle _
  · intro s hs
    unfold LocalPackagesRepository.get_latest_version at hs
    rcases e : (LocalPackagesRepository.get_package_versions w packages_dir
        package_name).getLast? with - | v
    · rw [e] at hs; exact absurd hs (by simp)
    · rw [e] at hs
      obtain rfl : v = s := by simpa using hs
      refine ⟨List.mem_of_getLast?_eq_some e, ?_⟩
      exact sorted_getLast_max (r := strVle) (fun a => vle_refl _)
        (List.sorted_insertionSort strVle _) e
  · intro s hs
    unfold RemotePackagesRepository.get_latest_version
      RemotePackagesRepository.get_package_versions at hs
    rcases e : rw.index.get_versions package_name with - | vs
    · rw [e] at hs; exact absurd hs (by simp)
    · rw [e] at hs
      dsimp only at hs
      rcases e2 : vs.getLast? with - | v
      · rw [e2] at hs; exact absurd hs (by simp)
      · rw [e2] at hs
        obtain rfl : v = s := by simpa using hs
        exact ⟨vs, rfl, e2⟩

/-- C6 witness: a local listing `["1.0.0", "0.9.0"]` sorts ascending and the
latest version is its maximum `1.0.0`. -/
theorem claim_C6_versions_order_witness :
    ("1.0.0".data) ∈ LocalPackagesRepository.get_package_versions
        ⟨⟨fun _ => true, fun _ => [], fun _ => none⟩,
          fun _ => ["1.0.0".data, "0.9.0".data], fun _ => none⟩
        ("/p".data) ("a".data) ∧
    ∀ t ∈ LocalPackagesRepository.get_package_versions
        ⟨⟨fun _ => true, fun _ => [], fun _ => none⟩,
          fun _ => ["1.0.0".data, "0.9.0".data], fun _ => none⟩
        ("/p".data) ("a".data), strVle t ("1.0.0".data) :=
  ((claim_C6_versions_order
      ⟨⟨fun _ => true, fun _ => [], fun _ => none⟩,
        fun _ => ["1.0.0".data, "0.9.0".data], fun _ => none⟩
      ⟨⟨"r".data, "u".data, []⟩, fun _ => none⟩
      ("/p".data) ("a".data)).2.1 ("1.0.0".data) rfl)

/-- C4 counterexample: duplicates separated by another version of the same
name after sorting survive `dedup_by`.  With local results `a@1.0.0, a@2.0.0`
and remote result `a@1.0.0`, the names tie, the stable sort keeps the
arrival order, and the result still contains `a@1.0.0` twice. -/
theorem claim_C4_search_dedup_counterexample :
    (PackageService.search_all_packages
        [⟨PackageId.new ("a".data) ⟨1, 0, 0, []⟩, "a".data, ⟨1, 0, 0, []⟩,
            "x".data, .Local ("/s".data), Target.current, none, [], false, false⟩,
          ⟨PackageId.new ("a".data) ⟨2, 0, 0, []⟩, "a".data, ⟨2, 0, 0, []⟩,
            "x".data, .Local ("/s".data), Target.current, none, [], false, false⟩]
        [⟨PackageId.new ("a".data) ⟨1, 0, 0, []⟩, "a".data, ⟨1, 0, 0, []⟩,
            "x".data, .Local ("/s".data), Target.current, none, [], false, false⟩]).map
      Package.id =
      [PackageId.new ("a".data) ⟨1, 0, 0, []⟩,
        PackageId.new ("a".data) ⟨2, 0, 0, []⟩,
        PackageId.new ("a".data) ⟨1, 0, 0, []⟩] ∧
    ¬ ([PackageId.new ("a".data) ⟨1, 0, 0, []⟩,
        PackageId.new ("a".data) ⟨2, 0, 0, []⟩,
        PackageId.new ("a".data) ⟨1, 0, 0, []⟩] : List PackageId).Nodup :=
  ⟨rfl, by decide⟩

/-- C4 (amended): `search_all_packages` returns the union of the two result
lists, sorted lexicographically by package name, with deduplication by
PackageId applied only to adjacent elements after the stable sort: no two
consecutive elements share an id, but duplicates separated by another
version of the same name may both remain. -/
theorem claim_C4_search_union_sorted_dedup
    (local_results remote_results : List Package) :
    List.Pairwise nameLe
      (PackageService.search_all_packages local_results remote_results) ∧
    List.Chain' (fun a b => a.id ≠ b.id)
      (PackageService.search_all_packages local_results remote_results) ∧
    ∀ p ∈ PackageService.search_all_packages local_results remote_results,
      p ∈ local_results ++ remote_results := by
  unfold PackageService.search_all_packages
  refine ⟨?_, ?_, ?_⟩
  · exact List.Pairwise.sublist (dedupBy_sublist _ _)
      (List.sorted_insertionSort nameLe _)
  · refine List.Chain'.imp ?_
      (dedupBy_chain (fun a b => a.id == b.id)
        ((local_results ++ remote_results).insertionSort nameLe))
    intro a b hab he
    simp [he] at hab
  · intro p hp
    exact (List.perm_insertionSort nameLe _).subset ((dedupBy_sublist _ _).subset hp)

/-- C4 witness: the amended property observed on the counterexample lists. -/
theorem claim_C4_search_union_sorted_dedup_witness :
    List.Pairwise nameLe
      (PackageService.search_all_packages
        [⟨PackageId.new ("a".data) ⟨1, 0, 0, []⟩, "a".data, ⟨1, 0, 0, []⟩,
            "x".data, .Local ("/s".data), Target.current, none, [], false, false⟩]
        [⟨PackageId.new ("a".data) ⟨1, 0, 0, []⟩, "a".data, ⟨1, 0, 0, []⟩,
            "x".data, .Local ("/s".data), Target.current, none, [], false, false⟩]) ∧
    List.Chain' (fun a b => a.id ≠ b.id)
      (PackageService.search_all_packages
        [⟨PackageId.new ("a".data) ⟨1, 0, 0, []⟩, "a".data, ⟨1, 0, 0, []⟩,
            "x".data, .Local ("/s".data), Target.current, none, [], false, false⟩]
        [⟨PackageId.new ("a".data) ⟨1, 0, 0, []⟩, "a".data, ⟨1, 0, 0, []⟩,
            "x".data, .Local ("/s".data), Target.current, none, [], false, false⟩]) ∧
    ∀ p ∈ PackageService.search_all_packages
        [⟨PackageId.new ("a".data) ⟨1, 0, 0, []⟩, "a".data, ⟨1, 0, 0, []⟩,
            "x".data, .Local ("/s".data), Target.current, none, [], false, false⟩]
        [⟨PackageId.new ("a".data) ⟨1, 0, 0, []⟩, "a".data, ⟨1, 0, 0, []⟩,
            "x".data, .Local ("/s".data), Target.current, none, [], false, false⟩],
      p ∈ [⟨PackageId.new ("a".data) ⟨1, 0, 0, []⟩, "a".data, ⟨1, 0, 0, []⟩,
            "x".data, .Local ("/s".data), Target.current, none, [], false, false⟩] ++
          [⟨PackageId.new ("a".data) ⟨1, 0, 0, []⟩, "a".data, ⟨1, 0, 0, []⟩,
            "x".data, .Local ("/s".data), Target.current, none, [], false, false⟩] :=
  claim_C4_search_union_sorted_dedup _ _

theorem mem_filterMap_parseVersion_wf {vs : List (List Char)} {v : Version}
    (h : v ∈ vs.filterMap parseVersion) : v.wf := by
  obtain ⟨s, -, hp⟩ := List.mem_filterMap.mp h
  exact parseVersion_wf hp

/-- Shape of a successful `latest_satisfying` answer: it is the display form
of a version that parses back and matches the constraint. -/
theorem latest_satisfying_shape {idx : RepositoryIndex} {d : Dependency}
    {s : List Char} (h : idx.latest_satisfying d = some s) :
    ∃ u, parseVersion s = some u ∧ s = versionChars u ∧
      d.matches_version u = true := by
  unfold RepositoryIndex.latest_satisfying at h
  rcases e : idx.get_versions d.name with - | vs
  · rw [e] at h; exact absurd h (by simp)
  · rw [e] at h
    dsimp only at h
    rw [Option.map_eq_some'] at h
    obtain ⟨v, hfind, rfl⟩ := h
    have hv : v ∈ vs.filterMap parseVersion := by
      have := List.mem_of_find?_eq_some hfind
      rw [List.mem_reverse] at this
      exact (List.perm_insertionSort vle _).mem_iff.mp this
    have hwf : v.wf := mem_filterMap_parseVersion_wf hv
    exact ⟨v, parseVersion_roundtrip hwf, rfl, List.find?_some hfind⟩

/-- A successful `PackageFactory::create` keeps the given name and version. -/
theorem PackageFactory.create_ok {name : List Char} {v : Version}
    {author : List Char} {src : PackageSource} {t : Target}
    {cs : Option Checksum} {deps : List Dependency} {p : Package}
    (h : PackageFactory.create name v author src t cs deps = .ok p) :
    p.name = name ∧ p.version = v := by
  unfold PackageFactory.create at h
  split at h
  · exact absurd h (by simp)
  · split at h
    · exact absurd h (by simp)
    · split at h
      · exact absurd h (by simp)
      · split at h
        · exact absurd h (by simp)
        · split at h
          · exact absurd h (by simp)
          · obtain rfl : _ = p := by simpa using h
            exact ⟨rfl, rfl⟩

/-- C3 counterexample: `resolve_dependencies` does not expand transitively.
In a world where `b@1.0.0` requires `c` and `c@1.0.0` is available and
resolvable, resolving `[b]` yields only the package `b` — no package for `c`
is produced, although resolving `[c]` directly succeeds. -/
theorem claim_C3_resolve_counterexample :
    (∃ ps, RemotePackagesRepository.resolve_dependencies ⟨"http://r".data⟩
        ⟨⟨"r".data, "u".data,
            [⟨"b".data, ["1.0.0".data]⟩, ⟨"c".data, ["1.0.0".data]⟩]⟩,
          fun r =>
            if r.name == "b".data then
              some ⟨"b".data, "x".data, none,
                [⟨"c".data, ⟨fun _ => true⟩, .Required, none, []⟩],
                none, none, none, none⟩
            else if r.name == "c".data then
              some ⟨"c".data, "x".data, none, [], none, none, none, none⟩
            else none⟩
        [⟨"b".data, ⟨fun _ => true⟩, .Required, none, []⟩] = .ok ps ∧
      ps.map Package.name = ["b".data]) ∧
    (∃ qs, RemotePackagesRepository.resolve_dependencies ⟨"http://r".data⟩
        ⟨⟨"r".data, "u".data,
            [⟨"b".data, ["1.0.0".data]⟩, ⟨"c".data, ["1.0.0".data]⟩]⟩,
          fun r =>
            if r.name == "b".data then
              some ⟨"b".data, "x".data, none,
                [⟨"c".data, ⟨fun _ => true⟩, .Required, none, []⟩],
                none, none, none, none⟩
            else if r.name == "c".data then
              some ⟨"c".data, "x".data, none, [], none, none, none, none⟩
            else none⟩
        [⟨"c".data, ⟨fun _ => true⟩, .Required, none, []⟩] = .ok qs ∧
      qs.map Package.name = ["c".data]) :=
  ⟨⟨_, rfl, rfl⟩, ⟨_, rfl, rfl⟩⟩

/-- C3 (amended): both repositories resolve only the direct dependencies,
one package per listed dependency.  The remote repository chooses each
dependency's `latest_satisfying` version (the maximum satisfying stored
version) and builds the package from that metadata; the local repository
scans its ascending version listing from the top and chooses the greatest
parseable version matching the constraint.  Dependencies of the chosen
packages are not expanded. -/
theorem claim_C3_resolve_direct_only :
    (∀ (repo : RemotePackagesRepository) (w : RemoteWorld)
        (deps : List Dependency) (ps : List Package),
      RemotePackagesRepository.resolve_dependencies repo w deps = .ok ps →
      List.Forall₂ (fun (d : Dependency) (p : Package) =>
        w.index.latest_satisfying d = some (versionChars p.version) ∧
        d.matches_version p.version = true ∧
        ∃ m, w.meta ⟨d.name, p.version⟩ = some m ∧ p.name = m.name) deps ps) ∧
    (∀ (w : LocalWorld) (packages_dir : List Char)
        (deps : List Dependency) (ps : List Package),
      LocalPackagesRepository.resolve_dependencies w packages_dir deps = .ok ps →
      List.Forall₂ (fun (d : Dependency) (p : Package) =>
        d.matches_version p.version = true ∧
        (∃ s ∈ LocalPackagesRepository.get_package_versions w packages_dir d.name,
          parseVersion s = some p.version) ∧
        ∀ s ∈ LocalPackagesRepository.get_package_versions w packages_dir d.name,
          ∀ u, parseVersion s = some u → d.matches_version u = true →
            vle u p.version) deps ps) := by
  constructor
  · intro repo w deps
    induction deps with
    | nil =>
      intro ps h
      obtain rfl : ([] : List Package) = ps := by
        simpa [RemotePackagesRepository.resolve_dependencies] using h
      exact List.Forall₂.nil
    | cons d rest ih =>
      intro ps h
      unfold RemotePackagesRepository.resolve_dependencies at h
      rcases e1 : w.index.latest_satisfying d with - | vstr
      · rw [e1] at h; exact absurd h (by simp)
      rw [e1] at h
      dsimp only at h
      rcases e2 : parseVersion vstr with - | version
      · rw [e2] at h; exact absurd h (by simp)
      rw [e2] at h
      dsimp only at h
      rcases e3 : repo.get_package w ⟨d.name, version⟩ with e | p
      · rw [e3] at h; exact absurd h (by simp)
      rw [e3] at h
      dsimp only at h
      rcases e4 : RemotePackagesRepository.resolve_dependencies repo w rest
        with e | ps'
      · rw [e4] at h; exact absurd h (by simp)
      rw [e4] at h
      dsimp only at h
      obtain rfl : p :: ps' = ps := by simpa using h
      refine List.Forall₂.cons ?_ (ih ps' e4)
      obtain ⟨u, hparse, hshape, hmatch⟩ := latest_satisfying_shape e1
      obtain rfl : version = u := by
        rw [e2] at hparse
        simpa using hparse
      unfold RemotePackagesRepository.get_package at e3
      rcases e5 : w.meta ⟨d.name, version⟩ with - | m
      · rw [e5] at e3; exact absurd e3 (by simp)
      rw [e5] at e3
      obtain rfl : _ = p := by simpa using e3
      exact ⟨by rw [← hshape, e1], hmatch, m, e5, rfl⟩
  · intro w packages_dir deps
    induction deps with
    | nil =>
      intro ps h
      obtain rfl : ([] : List Package) = ps := by
        simpa [LocalPackagesRepository.resolve_dependencies] using h
      exact List.Forall₂.nil
    | cons d rest ih =>
      intro ps h
      unfold LocalPackagesRepository.resolve_dependencies at h
      dsimp only at h
      rcases e1 : (LocalPackagesRepository.get_package_versions w packages_dir
          d.name).reverse.find?
          (fun v =>
            match parseVersion v with
            | some ver => d.matches_version ver
            | none => false) with - | vstr
      · rw [e1] at h; exact absurd h (by simp)
      rw [e1] at h
      dsimp only at h
      rcases e2 : parseVersion vstr with - | version
      · rw [e2] at h; exact absurd h (by simp)
      rw [e2] at h
      dsimp only at h
      rcases e3 : LocalPackagesRepository.get_package w packages_dir
          ⟨d.name, version⟩ with e | p
      · rw [e3] at h; exact absurd h (by simp)
      rw [e3] at h
      dsimp only at h
      rcases e4 : LocalPackagesRepository.resolve_dependencies w packages_dir rest
        with e | ps'
      · rw [e4] at h; exact absurd h (by simp)
      rw [e4] at h
      dsimp only at h
      obtain rfl : p :: ps' = ps := by simpa using h
      refine List.Forall₂.cons ?_ (ih ps' e4)
      have hpred := List.find?_some e1
      have hvmem : vstr ∈ LocalPackagesRepository.get_package_versions w
          packages_dir d.name := by
        have := List.mem_of_find?_eq_some e1
        rwa [List.mem_reverse] at this
      have hpv : p.version = version := by
        unfold LocalPackagesRepository.get_package at e3
        dsimp only at e3
        rcases e5 : w.meta ⟨d.name, version⟩ with - | lm
        · rw [e5] at e3
          dsimp only at e3
          revert e3
          split_ifs <;> intro e3 <;> exact absurd e3 (by simp)
        · rw [e5] at e3
          dsimp only at e3
          revert e3
          split_ifs
          · intro e3
            exact absurd e3 (by simp)
          · intro e3
            exact (PackageFactory.create_ok e3).2
      have hmatch : d.matches_version version = true := by
        rw [e2] at hpred
        simpa using hpred
      refine ⟨by rw [hpv]; exact hmatch, ⟨vstr, hvmem, by rw [e2, hpv]⟩, ?_⟩
      intro s hs u hu hm
      have hdesc : List.Pairwise (fun a b => strVle b a)
          (LocalPackagesRepository.get_package_versions w packages_dir
            d.name).reverse :=
        List.pairwise_reverse.mpr (List.sorted_insertionSort strVle _)
      have hps : (fun v =>
          match parseVersion v with
          | some ver => d.matches_version ver
          | none => false) s = true := by
        dsimp only
        rw [hu]
        simpa using hm
      have hle := find_desc_max (r := strVle) (fun a => vle_refl _) hdesc e1 s
        (by rwa [List.mem_reverse]) hps
      unfold strVle at hle
      rw [hu, e2] at hle
      simpa [hpv] using hle

/-- C3 witness: the amended remote property observed on the concrete world
of the counterexample, resolving `[b]` into exactly the package `b@1.0.0`. -/
theorem claim_C3_resolve_direct_only_witness :
    List.Forall₂ (fun (d : Dependency) (p : Package) =>
      (RemoteWorld.mk
          ⟨"r".data, "u".data,
            [⟨"b".data, ["1.0.0".data]⟩, ⟨"c".data, ["1.0.0".data]⟩]⟩
          (fun r =>
            if r.name == "b".data then
              some ⟨"b".data, "x".data, none,
                [⟨"c".data, ⟨fun _ => true⟩, .Required, none, []⟩],
                none, none, none, none⟩
            else if r.name == "c".data then
              some ⟨"c".data, "x".data, none, [], none, none, none, none⟩
            else none)).index.latest_satisfying d =
        some (versionChars p.version) ∧
      d.matches_version p.version = true ∧
      ∃ m, (RemoteWorld.mk
          ⟨"r".data, "u".data,
            [⟨"b".data, ["1.0.0".data]⟩, ⟨"c".data, ["1.0.0".data]⟩]⟩
          (fun r =>
            if r.name == "b".data then
              some ⟨"b".data, "x".data, none,
                [⟨"c".data, ⟨fun _ => true⟩, .Required, none, []⟩],
                none, none, none, none⟩
            else if r.name == "c".data then
              some ⟨"c".data, "x".data, none, [], none, none, none, none⟩
            else none)).meta ⟨d.name, p.version⟩ = some m ∧ p.name = m.name)
      [⟨"b".data, ⟨fun _ => true⟩, .Required, none, []⟩]
      [⟨PackageId.new ("b".data) ⟨1, 0, 0, []⟩, "b".data, ⟨1, 0, 0, []⟩,
        "x".data, .Http ("http://r/packages/b-1.0.0.uhp".data), Target.current,
        some ⟨"sha256".data, []⟩,
        [⟨"c".data, ⟨fun _ => true⟩, .Required, none, []⟩], false, false⟩] :=
  claim_C3_resolve_direct_only.1 ⟨"http://r".data⟩
    (RemoteWorld.mk
      ⟨"r".data, "u".data,
        [⟨"b".data, ["1.0.0".data]⟩, ⟨"c".data, ["1.0.0".data]⟩]⟩
      (fun r =>
        if r.name == "b".data then
          some ⟨"b".data, "x".data, none,
            [⟨"c".data, ⟨fun _ => true⟩, .Required, none, []⟩],
            none, none, none, none⟩
        else if r.name == "c".data then
          some ⟨"c".data, "x".data, none, [], none, none, none, none⟩
        else none))
    [⟨"b".data, ⟨fun _ => true⟩, .Required, none, []⟩]
    [⟨PackageId.new ("b".data) ⟨1, 0, 0, []⟩, "b".data, ⟨1, 0, 0, []⟩,
      "x".data, .Http ("http://r/packages/b-1.0.0.uhp".data), Target.current,
      some ⟨"sha256".data, []⟩,
      [⟨"c".data, ⟨fun _ => true⟩, .Required, none, []⟩], false, false⟩] rfl

end Uhpm
